import Mathlib

/-!
# Verification of the Octave GSoC JSON encoder/decoder

Shallow embedding of the repository's `jsonencode.cc` / `jsondecode.cc`
(the encoder lives in `src/README.md` after the document separator, the
decoder in `src/jsonencode.cc` and `src/libinterp/corefcn/jsondecode.cc`).

Modelling conventions:
* IEEE doubles are modelled by `RD`: an exact rational together with the
  special values `+Inf`, `-Inf`, `NaN` and Octave's `NA` marker.  All
  arithmetic the code performs on doubles in the relevant ranges
  (`floor`, subtraction of a value and its floor for |v| < 2^20, `fabs`,
  comparisons) is exact on representable doubles, so the rational model is
  faithful for every branch decision the code makes.
* RapidJSON is out of scope per the design (a "byte-level JSON parse/emit
  primitive supplying a typed event or node tree"); we model it at the
  node-tree level: `JVal`.  The writer events `Int64`, `Double`, `Null`,
  `Bool`, `String`, `StartArray`/`EndArray`, `StartObject`/`EndObject`
  become the corresponding tree constructors; with `kWriteNanAndInfFlag`
  the writer emits the literal tokens `NaN`, `Infinity`, `-Infinity`,
  modelled by the dedicated number constructors `jnan`, `jinf`, `jninf`
  (which `kParseNanAndInfFlag` parses back to the same number kinds).
* Octave values are modelled by `OVal`, mirroring the dynamic classes the
  code dispatches on (`is_real_scalar`, `isnumeric`, `is_string`,
  `isstruct`, `iscell`, `containers.Map`, and the catch-all unsupported
  case).  `matlab.lang.makeValidName` is an external collaborator and is
  modelled as a function parameter `σ`.
* `num2cell (A, conversion_dims)` (an external Octave builtin) is modelled
  by its specification: splitting the array along the single excluded
  dimension, column-major.
* The single piece of process state, the `Octave:classdef-to-struct`
  warning toggle, is threaded through the encoder as a `Bool` state
  (true = warning enabled).
-/

set_option maxRecDepth 4000
set_option maxHeartbeats 1000000

/-- Model of an Octave double: exact rational, infinities, IEEE NaN, or
Octave's missing-data marker NA (a NaN payload for which `isna` holds). -/
inductive RD where
  | fin (q : ℚ)
  | pinf
  | ninf
  | nan
  | na
deriving DecidableEq, Repr

instance : Inhabited RD := ⟨RD.nan⟩

/-- `std::floor` on the double model. -/
def rdFloor : RD → RD
  | .fin q => .fin ⌊q⌋
  | .pinf => .pinf
  | .ninf => .ninf
  | .nan => .nan
  | .na => .na

/-- Double subtraction; any operation involving NaN (or `Inf - Inf`)
produces NaN. -/
def rdSub : RD → RD → RD
  | .fin a, .fin b => .fin (a - b)
  | .pinf, .pinf => .nan
  | .ninf, .ninf => .nan
  | .pinf, _ => .pinf
  | .ninf, _ => .ninf
  | _, .pinf => .ninf
  | _, .ninf => .pinf
  | _, _ => .nan

/-- `fabs` on the double model. -/
def rdAbs : RD → RD
  | .fin q => .fin |q|
  | .pinf => .pinf
  | .ninf => .pinf
  | .nan => .nan
  | .na => .na

/-- IEEE `<` comparison: every comparison with NaN is false. -/
def rdLt : RD → RD → Bool
  | .fin a, .fin b => a < b
  | .fin _, .pinf => true
  | .ninf, .fin _ => true
  | .ninf, .pinf => true
  | _, _ => false

/-- IEEE `<=` comparison: every comparison with NaN is false. -/
def rdLe : RD → RD → Bool
  | .fin a, .fin b => a ≤ b
  | .fin _, .pinf => true
  | .ninf, .fin _ => true
  | .ninf, .pinf => true
  | .pinf, .pinf => true
  | .ninf, .ninf => true
  | _, _ => false

/-- `octave::math::isnan` (true for NaN and for NA, which is a NaN payload). -/
def rdIsNan : RD → Bool
  | .nan => true
  | .na => true
  | _ => false

/-- `std::isinf`. -/
def rdIsInf : RD → Bool
  | .pinf => true
  | .ninf => true
  | _ => false

/-- `octave_value::isna`. -/
def rdIsNa : RD → Bool
  | .na => true
  | _ => false

/-- C++ conversion of a double to `int64_t`: truncation toward zero. -/
def rdTrunc : RD → ℤ
  | .fin q => q.num.tdiv q.den
  | _ => 0

/-- Conversion of a double to `bool` (C++ `bool (array(i))`): nonzero is
true; NaN and infinities convert to true. -/
def rdToBool : RD → Bool
  | .fin q => q ≠ 0
  | _ => true

/-- `std::numeric_limits<double>::epsilon ()` = 2^-52, as the reduced
fraction 1/4503599627370496 (kept in constructor form so that the
comparisons the encoder performs stay kernel-computable). -/
def dblEps : ℚ := ⟨1, 4503599627370496, by norm_num, by norm_num⟩

/-- `dblEps` is 2^-52. -/
theorem dblEps_eq : dblEps = 1 / 4503599627370496 := by
  rw [dblEps, Rat.mk'_eq_divInt, Rat.divInt_eq_div]
  norm_num

/-- A parsed/emitted JSON number.  `jint` covers the integer lexical forms
(the writer's `Int64`, the parser's `IsUint`/`IsInt`/`IsUint64`/`IsInt64`);
`jdbl` a finite floating literal; `jnan`, `jinf`, `jninf` the non-standard
tokens `NaN`, `Infinity`, `-Infinity` written and parsed under
`kWriteNanAndInfFlag` / `kParseNanAndInfFlag`. -/
inductive JNum where
  | jint (n : ℤ)
  | jdbl (q : ℚ)
  | jnan
  | jinf
  | jninf
deriving DecidableEq, Repr

/-- A JSON node tree (RapidJSON `Value`). -/
inductive JVal where
  | null
  | jbool (b : Bool)
  | jnum (n : JNum)
  | jstr (s : String)
  | jarr (elems : List JVal)
  | jobj (members : List (String × JVal))

instance : Inhabited JVal := ⟨JVal.null⟩

/-- The Octave value universe the code dispatches over.  `str` is a 1×N
character row vector; `charMat` a general character array with explicit
dimensions (column-major data); `numArr`/`boolArr` carry explicit
dimension vectors and column-major data; `cell` is an N×1 cell column as
produced by the decoder; `smap` an `octave_scalar_map` (ordered fields);
`structArr` an `octave_map` stored field-major with `n` elements;
`cmap` a `containers.Map` holding its key-sorted contents; `unsupported`
stands for any value the encoder has no case for (function handles …). -/
inductive OVal where
  | bool (b : Bool)
  | num (x : RD)
  | str (s : String)
  | charMat (dims : List ℕ) (data : List Char)
  | numArr (dims : List ℕ) (data : List RD)
  | boolArr (dims : List ℕ) (data : List Bool)
  | cell (elems : List OVal)
  | smap (fields : List (String × OVal))
  | structArr (n : ℕ) (fields : List (String × List OVal))
  | cmap (pairs : List (String × OVal))
  | unsupported

instance : Inhabited OVal := ⟨OVal.unsupported⟩

/-- `dim_vector` normalisation performed by the `NDArray` constructor:
trailing singleton dimensions are chopped, keeping at least two entries. -/
def chopOnes : List ℕ → List ℕ
  | 1 :: rest => if 2 ≤ rest.length then chopOnes rest else 1 :: rest
  | l => l

/-- Normalised dimension vector of an `NDArray` built from raw dims. -/
def normDims (d : List ℕ) : List ℕ := (chopOnes d.reverse).reverse

/-- `octave_value::dims ()`. -/
def dimsOf : OVal → List ℕ
  | .bool _ => [1, 1]
  | .num _ => [1, 1]
  | .str s => [1, s.length]
  | .charMat d _ => d
  | .numArr d _ => d
  | .boolArr d _ => d
  | .cell es => [es.length, 1]
  | .smap _ => [1, 1]
  | .structArr n _ => [n, 1]
  | .cmap _ => [1, 1]
  | .unsupported => [1, 1]

/-- `octave_value::iscell ()`. -/
def iscellO : OVal → Bool
  | .cell _ => true
  | _ => false

/-- `octave_value::is_bool_matrix ()` (true only for the logical-array
class, not for logical scalars). -/
def isBoolMatrixO : OVal → Bool
  | .boolArr _ _ => true
  | _ => false

/-- `octave_value::array_value ()`: the value as a double `NDArray`,
column-major.  Cells, structs and maps have no such conversion and raise
the wrong-type-argument error. -/
def arrayValueO : OVal → Except String (List RD)
  | .bool b => .ok [.fin (if b then 1 else 0)]
  | .num x => .ok [x]
  | .str s => .ok (s.data.map (fun c => .fin c.toNat))
  | .charMat _ data => .ok (data.map (fun c => .fin c.toNat))
  | .numArr _ data => .ok data
  | .boolArr _ data => .ok (data.map (fun b => .fin (if b then 1 else 0)))
  | .cell _ => .error "octave_base_value::array_value: wrong type argument"
  | .smap _ => .error "octave_base_value::array_value: wrong type argument"
  | .structArr _ _ => .error "octave_base_value::array_value: wrong type argument"
  | .cmap _ => .error "octave_base_value::array_value: wrong type argument"
  | .unsupported => .error "octave_base_value::array_value: wrong type argument"

/-- `octave_value::scalar_map_value ()`: the ordered field list of a
scalar struct; any other class raises a wrong-type error. -/
def scalarMapValueO : OVal → Except String (List (String × OVal))
  | .smap f => .ok f
  | _ => .error "octave_base_value::scalar_map_value: wrong type argument"

/-- `octave_scalar_map::getfield`: the value stored under a field name. -/
def getfieldO (fields : List (String × OVal)) (k : String) : OVal :=
  ((fields.find? (fun p => p.1 == k)).map (fun p => p.2)).getD default

/-- `octave_scalar_map::assign`: overwrite in place if the field exists
(keeping its position), append otherwise. -/
def smapAssign (fields : List (String × OVal)) (k : String) (v : OVal) :
    List (String × OVal) :=
  if fields.any (fun p => p.1 == k) then
    fields.map (fun p => if p.1 == k then (k, v) else p)
  else fields ++ [(k, v)]

/-- RapidJSON node kinds (`rapidjson::Type`); booleans are two kinds. -/
inductive RKind where
  | kNull
  | kFalse
  | kTrue
  | kObject
  | kArray
  | kString
  | kNumber
deriving DecidableEq, Repr

/-- `rapidjson::Value::GetType ()`. -/
def kindOf : JVal → RKind
  | .null => .kNull
  | .jbool b => if b then .kTrue else .kFalse
  | .jnum _ => .kNumber
  | .jstr _ => .kString
  | .jarr _ => .kArray
  | .jobj _ => .kObject

/-- The `same_type` merge in `decode_array`: True and False count as the
same kind. -/
def sameKind (a b : RKind) : Bool :=
  a == b || (a == .kTrue && b == .kFalse) || (a == .kFalse && b == .kTrue)

/-- `decode_number`: the numeric value of a numeric JSON node (all five
lexical classes collapse to their double value downstream). -/
def decode_number : JNum → RD
  | .jint n => .fin n
  | .jdbl q => .fin q
  | .jnan => .nan
  | .jinf => .pinf
  | .jninf => .ninf

/-- `decode_numeric_array`: flatten a numeric JSON array into an N×1
`NDArray`, nulls becoming NaN.  (The non-numeric default is unreachable:
the caller classified every element as Null or Number.) -/
def decode_numeric_array (es : List JVal) : OVal :=
  .numArr [es.length, 1]
    (es.map (fun e =>
      match e with
      | .null => RD.nan
      | .jnum n => decode_number n
      | _ => RD.nan))

/-- `decode_boolean_array`: flatten a boolean JSON array into an N×1
logical array.  (`GetBool` is only called on boolean nodes; the default
is unreachable.) -/
def decode_boolean_array (es : List JVal) : OVal :=
  .boolArr [es.length, 1]
    (es.map (fun e =>
      match e with
      | .jbool b => b
      | _ => false))

/-- `equals (string_vector, string_vector)`: element count and elementwise
equality of two field-name vectors. -/
def svEquals (a b : List String) : Bool :=
  a.length == b.length && (List.zip a b).all (fun p => p.1 == p.2)

/-- `decode_object_array`, after its first line: the argument is the cell
of already-decoded elements (`decode_string_and_mixed_array` is performed
by the caller in this embedding).  Compares every element's ordered field
names with element 0's; if all agree, repacks field-major into a struct
array, otherwise returns the cell unmodified. -/
def decode_object_array (struct_cell : List OVal) : Except String OVal := do
  let headFields ← scalarMapValueO (struct_cell.headD default)
  let allFields ← struct_cell.mapM scalarMapValueO
  let field_names := headFields.map (fun p => p.1)
  let same_field_names :=
    allFields.all (fun f => svEquals field_names (f.map (fun p => p.1)))
  if same_field_names then
    .ok (.structArr struct_cell.length
      (field_names.map (fun nm => (nm, allFields.map (fun f => getfieldO f nm)))))
  else
    .ok (.cell struct_cell)

/-- `decode_array_of_arrays`, after its first line: the argument is the
cell of already-decoded sub-values.  If any element is a cell, has
mismatching or degenerate dimensions, or disagrees on the logical kind,
the cell is returned; otherwise an `NDArray` of shape
(count, sub-dims…) is filled position-interleaved from the elements'
`array_value ()` data. -/
def decode_array_of_arrays (cell : List OVal) : Except String OVal :=
  let is_bool := isBoolMatrixO (cell.headD default)
  let sub_array_dims := dimsOf (cell.headD default)
  let cell_numel := cell.length
  if cell.any (fun c =>
      iscellO c ||
      dimsOf c != sub_array_dims || sub_array_dims == [0, 0] ||
      isBoolMatrixO c != is_bool) then
    .ok (.cell cell)
  else
    let array_dims := normDims (cell_numel :: sub_array_dims)
    let total := array_dims.prod
    let count := total / cell_numel * cell_numel
    ((List.range count).mapM (fun p =>
        (arrayValueO (cell.getD (p % cell_numel) default)).map
          (fun l => l.getD (p / cell_numel) default))).map
      (fun data => .numArr array_dims data)

/-- `decode_string_and_mixed_array`'s element loop: decode every element
in order.  The element decoder `dec` is a parameter (the recursion knot is
tied with explicit fuel in `decode` below). -/
def decodeList (dec : JVal → Except String OVal) :
    List JVal → Except String (List OVal)
  | [] => .ok []
  | e :: rest =>
    (dec e).bind (fun v => (decodeList dec rest).map (fun vs => v :: vs))

/-- `decode_string_and_mixed_array`: each element decoded independently
into an N×1 cell. -/
def decode_string_and_mixed_array (dec : JVal → Except String OVal)
    (es : List JVal) : Except String OVal :=
  (decodeList dec es).map .cell

/-- `decode_object`'s member loop: sanitize each key via `σ` (the external
`matlab.lang.makeValidName` collaborator with its forwarded options) and
assign the decoded value into the scalar map (last write wins). -/
def decodeMembers (dec : JVal → Except String OVal) (σ : String → String) :
    List (String × JVal) → List (String × OVal) →
    Except String (List (String × OVal))
  | [], acc => .ok acc
  | (k, v) :: rest, acc =>
    (dec v).bind (fun ov => decodeMembers dec σ rest (smapAssign acc (σ k) ov))

/-- `decode_object`: iterate the members in document order into a scalar
struct. -/
def decode_object (dec : JVal → Except String OVal) (σ : String → String)
    (members : List (String × JVal)) : Except String OVal :=
  (decodeMembers dec σ members []).map .smap

/-- `decode_array`: one classification pass (`is_numeric`, `same_type`)
then dispatch to the array decoders.  String arrays, mixed arrays, object
arrays and arrays of arrays all first decode every element
(`decode_string_and_mixed_array`). -/
def decode_array (dec : JVal → Except String OVal) (es : List JVal) :
    Except String OVal :=
  if es.isEmpty then .ok (.numArr [0, 0] [])
  else
    let array_type := kindOf (es.headD default)
    let is_numeric := es.all (fun e =>
      kindOf e == RKind.kNull || kindOf e == RKind.kNumber)
    let same_type := es.all (fun e => sameKind (kindOf e) array_type)
    if is_numeric then .ok (decode_numeric_array es)
    else if same_type then
      if array_type == RKind.kTrue || array_type == RKind.kFalse then
        .ok (decode_boolean_array es)
      else if array_type == RKind.kString then
        decode_string_and_mixed_array dec es
      else if array_type == RKind.kObject then
        (decodeList dec es).bind decode_object_array
      else if array_type == RKind.kArray then
        (decodeList dec es).bind decode_array_of_arrays
      else .error "jsondecode.cc: Unidentified type."
    else decode_string_and_mixed_array dec es

/-- `decode`: dispatch over the node kind.  The C++ recursion is modelled
with explicit fuel (the call stack); fuel exceeding the nesting depth of
the node never runs out. -/
def decode (fuel : ℕ) (σ : String → String) : JVal → Except String OVal :=
  match fuel with
  | 0 => fun _ => .error "stack overflow"
  | fuel + 1 => fun j =>
    match j with
    | .jbool b => .ok (.bool b)
    | .jnum n => .ok (.num (decode_number n))
    | .jstr s => .ok (.str s)
    | .jobj members => decode_object (decode fuel σ) σ members
    | .null => .ok (.numArr [0, 0] [])
    | .jarr es => decode_array (decode fuel σ) es

mutual

/-- Size of a JSON node tree, used as a generous stack bound. -/
def jsize : JVal → ℕ
  | .null => 1
  | .jbool _ => 1
  | .jnum _ => 1
  | .jstr _ => 1
  | .jarr es => 1 + jsizeL es
  | .jobj ms => 1 + jsizeM ms
termination_by j => (sizeOf j, 1)

/-- Size of a list of JSON nodes. -/
def jsizeL : List JVal → ℕ
  | [] => 1
  | e :: rest => jsize e + jsizeL rest
termination_by es => (sizeOf es, 0)

/-- Size of a member list of a JSON object. -/
def jsizeM : List (String × JVal) → ℕ
  | [] => 1
  | (_, v) :: rest => jsize v + jsizeM rest
termination_by ms => (sizeOf ms, 0)

end

/-- The decode pipeline of `DEFUN_DLD (jsondecode, …)` after a successful
parse: decode the node tree (with ample stack). -/
def jsondecode (σ : String → String) (j : JVal) : Except String OVal :=
  decode (jsize j) σ j

/-! ## Encoder (`jsonencode.cc`, the revision kept in `src/README.md`) -/

/-- Double negation (`-value`). -/
def rdNeg : RD → RD
  | .fin q => .fin (-q)
  | .pinf => .ninf
  | .ninf => .pinf
  | .nan => .nan
  | .na => .na

/-- `writer.Double` under `kWriteNanAndInfFlag`: finite doubles become
floating literals; NaN, `+Inf`, `-Inf` the literal tokens `NaN`,
`Infinity`, `-Infinity`.  (NA never reaches the writer: `encode_numeric`
turns it into `null` first.) -/
def writeDouble : RD → JNum
  | .fin q => .jdbl q
  | .pinf => .jinf
  | .ninf => .jninf
  | .nan => .jnan
  | .na => .jnan

/-- `encode_numeric`: booleans become JSON booleans; integral-looking
values (within machine epsilon of their floor, magnitude at most 999999)
become `Int64` literals; NaN/Inf under `ConvertInfAndNaN` (and NA always)
become `null`; remaining doubles become floating literals.  Any other
scalar is an unsupported type.  (`writer.Int64 (value)` converts the
double to `int64_t` by truncation toward zero.) -/
def encode_numeric (ConvertInfAndNaN : Bool) (obj : OVal) : Except String JVal :=
  match obj with
  | .bool b => .ok (.jbool b)
  | .num value =>
    if rdLt (rdAbs (rdSub (rdFloor value) value)) (.fin dblEps)
        && rdLe value (.fin 999999) && rdLe (.fin (-999999)) value then
      .ok (.jnum (.jint (rdTrunc value)))
    else if ((rdIsNan value || rdIsInf value || rdIsInf (rdNeg value))
        && ConvertInfAndNaN) || rdIsNa value then
      .ok .null
    else
      .ok (.jnum (writeDouble value))
  | _ => .error "jsonencode: Unsupported type."

/-- A double `NDArray`: dimension vector and column-major data. -/
structure NDA where
  dims : List ℕ
  data : List RD

/-- A character array: dimension vector and column-major data. -/
structure CHA where
  dims : List ℕ
  data : List Char

/-- `dim_vector::num_ones`. -/
def numOnes (d : List ℕ) : ℕ := (d.filter (fun x => x == 1)).length

/-- `dim_vector::isvector` (used by `Array::isvector`): exactly two
dimensions, one of them 1. -/
def isVec (d : List ℕ) : Bool :=
  d.length == 2 && (d.getD 0 0 == 1 || d.getD 1 0 == 1)

/-- The `for (idx = 0; …) if (dims(idx) != 1) break;` search: index of the
first non-singleton dimension. -/
def firstNonOne (d : List ℕ) : ℕ := (d.findIdx? (fun x => x ≠ 1)).getD d.length

/-- `Array::as_row`: reshape to 1×numel, data unchanged. -/
def asRow (A : NDA) : NDA := ⟨[1, A.data.length], A.data⟩

/-- One cell of `num2cell (A, conversion_dims)` where `conversion_dims`
excludes exactly dimension `t` (0-based): the `j`-th slice along
dimension `t`, column-major.  `num2cell` is an external Octave builtin;
this is its specification for the single-split-dimension call shape the
encoder uses.  With `P` the product of the dimensions before `t` and `D`
the size of dimension `t`, the slice collects positions
`lo + P*(j + D*hi)`. -/
def num2cellSlice (d : List ℕ) (t j : ℕ) (data : List RD) : List RD :=
  let P := (d.take t).prod
  let D := d.getD t 1
  (List.range (data.length / (P * D))).flatMap (fun hi =>
    (List.range P).map (fun lo => data.getD (lo + P * (j + D * hi)) default))

/-- Character version of `num2cellSlice`. -/
def num2cellSliceC (d : List ℕ) (t j : ℕ) (data : List Char) : List Char :=
  let P := (d.take t).prod
  let D := d.getD t 1
  (List.range (data.length / (P * D))).flatMap (fun hi =>
    (List.range P).map (fun lo => data.getD (lo + P * (j + D * hi)) ' '))

/-- `n` nested `StartArray`/`EndArray` pairs around a value. -/
def nestArrays : ℕ → JVal → JVal
  | 0, j => j
  | n + 1, j => .jarr [nestArrays n j]

/-- `n` nested bracket pairs around a sibling list of emitted values: the
innermost bracket collects the siblings, outer brackets are singletons. -/
def nestArrayList : ℕ → List JVal → List JVal
  | 0, l => l
  | n + 1, l => [nestArrays n (.jarr l)]

/-- `encode_array`: numeric/logical N-D array encoding by recursive
dimension folding.  Empty arrays emit `[]`; vectors emit a flat array of
scalars (logical arrays re-wrap each element as a bool); arrays with
exactly one non-singleton dimension are flattened to a row, wrapped in
one bracket pair per collapsed dimension when `level != 0` (the recursive
call resets `level` to 0); a singleton original dimension at the current
level adds one bracket pair; otherwise the array splits via `num2cell`
along the first non-singleton dimension.  The C++ call stack is explicit
fuel. -/
def encode_array : ℕ → Bool → Bool → NDA → List ℕ → ℕ → Except String JVal
  | 0, _, _, _, _, _ => .error "stack overflow"
  | fuel + 1, cv, isLog, A, org_dims, level =>
    if A.data.length == 0 then .ok (.jarr [])
    else if isVec A.dims then
      (A.data.mapM (fun x =>
        if isLog then encode_numeric cv (.bool (rdToBool x))
        else encode_numeric cv (.num x))).map .jarr
    else
      let ndims := A.dims.length
      if numOnes A.dims == ndims - 1 then
        (encode_array fuel cv isLog (asRow A) org_dims 0).map (fun inner =>
          if level != 0 then nestArrays (ndims - 1 - level) inner else inner)
      else if org_dims.getD level 1 == 1 then
        (encode_array fuel cv isLog A org_dims (level + 1)).map
          (fun j => .jarr [j])
      else
        let idx := firstNonOne A.dims
        let D := A.dims.getD idx 1
        ((List.range D).mapM (fun j =>
          encode_array fuel cv isLog ⟨A.dims.set idx 1, num2cellSlice A.dims idx j A.data⟩
            org_dims (level + 1))).map .jarr

/-- The `level != 0` vector loop of `encode_string`: emit
`numel / org_dims(1)` strings of `org_dims(1)` consecutive characters. -/
def encode_string_rows (org1 : ℕ) (data : List Char) : List JVal :=
  (List.range (data.length / org1)).map (fun i =>
    .jstr (String.mk ((List.range org1).map
      (fun k => data.getD (i * org1 + k) ' '))))

/-- `encode_string`: character-array encoding, structurally parallel to
`encode_array` but emitting strings at the leaves.  A recursion level can
emit several sibling strings, so the result is the list of values written
at that level.  Differences from `encode_array` faithfully kept: the
vector case at `level != 0` chops the data into rows of `org_dims(1)`
characters; the flatten case passes the current `level` on (not 0); the
singleton-dimension bracket additionally requires `level != 1`; the
split-dimension search runs on a copy of the dims with `dims(1)` forced
to 1. -/
def encode_string : ℕ → CHA → List ℕ → ℕ → Except String (List JVal)
  | 0, _, _, _ => .error "stack overflow"
  | fuel + 1, A, org_dims, level =>
    if A.data.length == 0 then .ok [.jstr ""]
    else if isVec A.dims then
      if level == 0 then .ok [.jstr (String.mk A.data)]
      else .ok (encode_string_rows (org_dims.getD 1 1) A.data)
    else
      let ndims := A.dims.length
      if numOnes A.dims == ndims - 1 then
        (encode_string fuel ⟨[1, A.data.length], A.data⟩ org_dims level).map
          (fun inner =>
            if level != 0 then nestArrayList (ndims - 1 - level) inner
            else inner)
      else if org_dims.getD level 1 == 1 && level != 1 then
        (encode_string fuel A org_dims (level + 1)).map (fun l => [.jarr l])
      else
        let dims2 := A.dims.set 1 1
        let idx := firstNonOne dims2
        let D := A.dims.getD idx 1
        ((List.range D).mapM (fun j =>
          encode_string fuel ⟨A.dims.set idx 1, num2cellSliceC A.dims idx j A.data⟩
            org_dims (level + 1))).map
          (fun ls => [.jarr ls.flatten])

/-- The coercion `obj.char_array_value ()`. -/
def charArrayValueO : OVal → CHA
  | .str s => ⟨[1, s.length], s.data⟩
  | .charMat d data => ⟨d, data⟩
  | _ => ⟨[0, 0], []⟩

/-- Top-level character-array encoding: at `level = 0` exactly one value
is written. -/
def encode_stringTop (A : CHA) : Except String JVal :=
  (encode_string (2 * A.dims.length + 4) A A.dims 0).bind (fun l =>
    match l with
    | [j] => .ok j
    | _ => .error "jsonencode: internal error")

/-- `octave_value::map_value ()`: element count and field-major contents
of a struct value (`octave_map`); a scalar struct has one element. -/
def map_valueO : OVal → Except String (ℕ × List (String × List OVal))
  | .smap f => .ok (1, f.map (fun p => (p.1, [p.2])))
  | .structArr n f => .ok (n, f)
  | _ => .error "octave_base_value::map_value: wrong type argument"

/-- The encoder monad: the one piece of process state is the
`Octave:classdef-to-struct` warning toggle (true = enabled); an `error`
is a C++ exception, which propagates leaving the state as it was at the
throw point. -/
abbrev EncM := ExceptT String (StateM Bool)

/-- Run an encoder computation from a given warning state. -/
def runEnc (x : EncM α) (s : Bool) : Except String α × Bool := x.run.run s

/-- Lift a pure fallible computation. -/
def liftE (e : Except String α) : EncM α := ExceptT.mk (pure e)

/-- `set_warning_state ("Octave:classdef-to-struct", _)`. -/
def setWarnState (b : Bool) : EncM Unit := ExceptT.mk (do set b; pure (.ok ()))

/-- `encode_struct`: a struct value with `numel` elements writes `numel`
objects (one member per field, recursively encoded), wrapped in an array
exactly when `numel > 1`.  With `numel = 0` the writer emits no value at
all, which the node-tree model cannot represent; that case is marked with
a dedicated error.  The recursive `encode` is a parameter `enc`. -/
def encode_struct (enc : OVal → EncM JVal) (obj : OVal) : EncM JVal := do
  let mv ← liftE (map_valueO obj)
  let numel := mv.1
  let objs ← (List.range numel).mapM (fun i =>
    (mv.2.mapM (fun p =>
      (enc (p.2.getD i default)).map (fun jv => (p.1, jv)))).map JVal.jobj)
  if 1 < numel then pure (.jarr objs)
  else
    match objs with
    | [o] => pure o
    | _ => throw "jsonencode: struct array without elements writes no value"

/-- `encode_cell`: a cell array writes a JSON array of its recursively
encoded elements. -/
def encode_cell (enc : OVal → EncM JVal) (es : List OVal) : EncM JVal :=
  (es.mapM enc).map .jarr

/-- The scalar-struct conversion of a `containers.Map`
(`obj.scalar_map_value ().getfield ("map")`): the inner struct holding
the map's data, keys in ascending order (host-defined). -/
def cmapInnerStruct (pairs : List (String × OVal)) : OVal := .smap pairs

/-- `encode`: dispatch over the value's dynamic class.  Real scalars,
numeric/logical arrays, strings, structs, cells, and `containers.Map`
(around whose struct conversion the `Octave:classdef-to-struct` warning
is switched off and then switched on); everything else is unsupported.
The C++ call stack is explicit fuel. -/
def encode : ℕ → Bool → OVal → EncM JVal
  | 0, _, _ => throw "stack overflow"
  | fuel + 1, ConvertInfAndNaN, obj =>
    match obj with
    | .bool b => liftE (encode_numeric ConvertInfAndNaN (.bool b))
    | .num x => liftE (encode_numeric ConvertInfAndNaN (.num x))
    | .numArr d data =>
      liftE (encode_array (2 * d.length + 4) ConvertInfAndNaN false ⟨d, data⟩ d 0)
    | .boolArr d data =>
      liftE (encode_array (2 * d.length + 4) ConvertInfAndNaN true
        ⟨d, data.map (fun b => RD.fin (if b then 1 else 0))⟩ d 0)
    | .str s => liftE (encode_stringTop (charArrayValueO (.str s)))
    | .charMat d data => liftE (encode_stringTop (charArrayValueO (.charMat d data)))
    | .smap f => encode_struct (encode fuel ConvertInfAndNaN) (.smap f)
    | .structArr n f => encode_struct (encode fuel ConvertInfAndNaN) (.structArr n f)
    | .cell es => encode_cell (encode fuel ConvertInfAndNaN) es
    | .cmap pairs => do
        setWarnState false
        let r ← encode_struct (encode fuel ConvertInfAndNaN) (cmapInnerStruct pairs)
        setWarnState true
        pure r
    | .unsupported => throw "jsonencode: Unsupported type."

mutual

/-- Size of an Octave value, used as a generous stack bound. -/
def osize : OVal → ℕ
  | .cell es => 1 + osizeL es
  | .smap f => 1 + osizeF f
  | .structArr _ f => 1 + osizeFF f
  | .cmap f => 1 + osizeF f
  | _ => 1
termination_by v => (sizeOf v, 1)

/-- Size of a list of Octave values. -/
def osizeL : List OVal → ℕ
  | [] => 1
  | v :: rest => osize v + osizeL rest
termination_by l => (sizeOf l, 0)

/-- Size of a field list. -/
def osizeF : List (String × OVal) → ℕ
  | [] => 1
  | (_, v) :: rest => osize v + osizeF rest
termination_by l => (sizeOf l, 0)

/-- Size of a field-major field list. -/
def osizeFF : List (String × List OVal) → ℕ
  | [] => 1
  | (_, vs) :: rest => osizeL vs + osizeFF rest
termination_by l => (sizeOf l, 0)

end

/-- The encode pipeline of `DEFUN_DLD (jsonencode, …)` after option
parsing: encode the value (with ample stack) starting from warning state
`s`, returning the produced node tree and the final warning state. -/
def jsonencode (ConvertInfAndNaN : Bool) (v : OVal) (s : Bool) :
    Except String JVal × Bool :=
  runEnc (encode (osize v) ConvertInfAndNaN v) s

/-- `jsondecode`'s argument model: a character-string argument or any
other Octave value. -/
inductive OctArg where
  | strArg (s : String)
  | otherArg
deriving DecidableEq, Repr

/-- The argument validation of `DEFUN_DLD (jsondecode, …)` in
`src/jsonencode.cc`: `if (! (nargin % 2)) print_usage ();` rejects even
argument counts, then the first argument must be a string; on success the
payload string is handed to the parser. -/
def jsondecode_args (args : List OctArg) : Except String String :=
  if args.length % 2 == 0 then .error "print_usage: Invalid call to jsondecode"
  else
    match args.headD .otherArg with
    | .strArg s => .ok s
    | .otherArg => .error "jsondecode: The input must be a character string"

/-! ## Proof-support definitions

Characterisations used by the proofs: the value a scalar encode writes,
the column-major slices of a first-dimension split, and the normal form
of the JSON tree `encode_array` produces on arrays without singleton
dimensions. -/

/-- The node `encode_numeric` writes for a double scalar (it always
writes exactly one; the error branch is unreachable for doubles). -/
def encNumPure (cv : Bool) (x : RD) : JVal :=
  match encode_numeric cv (.num x) with
  | .ok j => j
  | .error _ => .null

/-- The `j`-th residue slice: elements at positions `j, j+D, j+2D, …`
(the column-major slice of a first-dimension split). -/
def resid (D j : ℕ) (data : List RD) : List RD :=
  (List.range (data.length / D)).map (fun t => data.getD (j + D * t) default)

/-- Normal form of the tree `encode_array` writes for an array all of
whose dimensions are at least 2: nested arrays over the leading
dimensions with flat rows along the last dimension. -/
def nestJ (cv : Bool) : List ℕ → List RD → JVal
  | [], _ => .null
  | [_], data => .jarr (data.map (encNumPure cv))
  | d :: d' :: ds, data =>
    .jarr ((List.range d).map (fun j => nestJ cv (d' :: ds) (resid d j data)))

/-- A double whose scalar encoding decodes back to itself: finite, and
exactly integral whenever the integral-emission test fires (tiny
fractional values in `(0, 2^-52)` fail this and collapse to `0`). -/
def goodRD (x : RD) : Prop :=
  ∃ q : ℚ, x = .fin q ∧
    ((|q - ⌊q⌋| < dblEps ∧ -999999 ≤ q ∧ q ≤ 999999) → q = ⌊q⌋)

/-- A simple scalar field value: logical, numeric or a character row
vector. -/
def simpleScalar (v : OVal) : Prop :=
  (∃ b, v = .bool b) ∨ (∃ x, v = .num x) ∨ (∃ s, v = .str s)

/-- The node the encoder writes for a simple scalar. -/
def encScalar (cv : Bool) : OVal → JVal
  | .bool b => .jbool b
  | .num x => encNumPure cv x
  | .str s => .jstr s
  | _ => .null

/-! ## Basic computation lemmas -/

theorem osize_bool (b : Bool) : osize (.bool b) = 1 := by simp [osize]

theorem osize_num (x : RD) : osize (.num x) = 1 := by simp [osize]

theorem osize_str (s : String) : osize (.str s) = 1 := by simp [osize]

theorem osize_charMat (d : List ℕ) (data : List Char) :
    osize (.charMat d data) = 1 := by simp [osize]

theorem osize_numArr (d : List ℕ) (data : List RD) :
    osize (.numArr d data) = 1 := by simp [osize]

theorem osize_boolArr (d : List ℕ) (data : List Bool) :
    osize (.boolArr d data) = 1 := by simp [osize]

theorem osize_unsupported : osize .unsupported = 1 := by simp [osize]

theorem osize_cell (es : List OVal) : osize (.cell es) = 1 + osizeL es := by
  simp [osize]

theorem osize_smap (f : List (String × OVal)) : osize (.smap f) = 1 + osizeF f := by
  simp [osize]

theorem osize_structArr (n : ℕ) (f : List (String × List OVal)) :
    osize (.structArr n f) = 1 + osizeFF f := by simp [osize]

theorem osize_cmap (f : List (String × OVal)) : osize (.cmap f) = 1 + osizeF f := by
  simp [osize]

theorem jsize_null : jsize .null = 1 := by simp [jsize]

theorem jsize_jbool (b : Bool) : jsize (.jbool b) = 1 := by simp [jsize]

theorem jsize_jnum (n : JNum) : jsize (.jnum n) = 1 := by simp [jsize]

theorem jsize_jstr (s : String) : jsize (.jstr s) = 1 := by simp [jsize]

theorem jsize_jarr (es : List JVal) : jsize (.jarr es) = 1 + jsizeL es := by
  simp [jsize]

theorem jsize_jobj (ms : List (String × JVal)) : jsize (.jobj ms) = 1 + jsizeM ms := by
  simp [jsize]

theorem jsizeL_nil : jsizeL [] = 1 := by simp [jsizeL]

theorem jsizeL_cons (e : JVal) (rest : List JVal) :
    jsizeL (e :: rest) = jsize e + jsizeL rest := by simp [jsizeL]

theorem jsizeM_nil : jsizeM [] = 1 := by simp [jsizeM]

theorem jsizeM_cons (k : String) (v : JVal) (rest : List (String × JVal)) :
    jsizeM ((k, v) :: rest) = jsize v + jsizeM rest := by simp [jsizeM]

theorem runEnc_liftE (e : Except String α) (s : Bool) :
    runEnc (liftE e) s = (e, s) := rfl

theorem runEnc_pure (a : α) (s : Bool) :
    runEnc (pure a : EncM α) s = (.ok a, s) := rfl

theorem runEnc_throw (msg : String) (s : Bool) :
    runEnc (throw msg : EncM α) s = (.error msg, s) := rfl

theorem runEnc_setWarnState (b s : Bool) :
    runEnc (setWarnState b) s = (.ok (), b) := rfl

theorem runEnc_bind (x : EncM α) (f : α → EncM β) (s : Bool) :
    runEnc (x >>= f) s =
      (match runEnc x s with
       | (.ok a, s1) => runEnc (f a) s1
       | (.error e, s1) => (.error e, s1)) := by
  rcases h : runEnc x s with ⟨r, s1⟩
  have h' : x s = (r, s1) := h
  cases r with
  | ok a =>
    simp [runEnc, Bind.bind, ExceptT.bind, ExceptT.bindCont, ExceptT.mk,
      ExceptT.run, StateT.run, StateT.bind, h']
  | error e =>
    simp [runEnc, Bind.bind, ExceptT.bind, ExceptT.bindCont, ExceptT.mk,
      ExceptT.run, StateT.run, StateT.bind, h', pure, StateT.pure]

theorem runEnc_map (x : EncM α) (g : α → β) (s : Bool) :
    runEnc (g <$> x) s =
      (match runEnc x s with
       | (.ok a, s1) => (.ok (g a), s1)
       | (.error e, s1) => (.error e, s1)) := by
  rcases h : runEnc x s with ⟨r, s1⟩
  have h' : x s = (r, s1) := h
  cases r with
  | ok a =>
    simp [runEnc, Functor.map, ExceptT.map, ExceptT.mk,
      ExceptT.run, StateT.run, StateT.bind, Bind.bind, h', pure, StateT.pure]
  | error e =>
    simp [runEnc, Functor.map, ExceptT.map, ExceptT.mk,
      ExceptT.run, StateT.run, StateT.bind, Bind.bind, h', pure, StateT.pure]

theorem runEnc_ETmap (x : EncM α) (g : α → β) (s : Bool) :
    runEnc (ExceptT.map g x) s =
      (match runEnc x s with
       | (.ok a, s1) => (.ok (g a), s1)
       | (.error e, s1) => (.error e, s1)) := by
  rcases h : runEnc x s with ⟨r, s1⟩
  have h' : x s = (r, s1) := h
  cases r with
  | ok a =>
    simp [runEnc, ExceptT.map, ExceptT.mk,
      ExceptT.run, StateT.run, StateT.bind, Bind.bind, h', pure, StateT.pure]
  | error e =>
    simp [runEnc, ExceptT.map, ExceptT.mk,
      ExceptT.run, StateT.run, StateT.bind, Bind.bind, h', pure, StateT.pure]

theorem runEnc_bind_ok (x : EncM α) (a : α) (s1 : Bool) (f : α → EncM β)
    (s : Bool) (h : runEnc x s = (.ok a, s1)) :
    runEnc (x >>= f) s = runEnc (f a) s1 := by
  rw [runEnc_bind, h]

theorem runEnc_ETmap_ok (x : EncM α) (a : α) (s1 : Bool) (g : α → β)
    (s : Bool) (h : runEnc x s = (.ok a, s1)) :
    runEnc (ExceptT.map g x) s = (.ok (g a), s1) := by
  rw [runEnc_ETmap, h]

theorem osizeL_nil : osizeL [] = 1 := by simp [osizeL]

theorem osizeL_cons (v : OVal) (rest : List OVal) :
    osizeL (v :: rest) = osize v + osizeL rest := by simp [osizeL]

theorem osizeF_nil : osizeF [] = 1 := by simp [osizeF]

theorem osizeF_cons (k : String) (v : OVal) (rest : List (String × OVal)) :
    osizeF ((k, v) :: rest) = osize v + osizeF rest := by simp [osizeF]

theorem osizeFF_nil : osizeFF [] = 1 := by simp [osizeFF]

theorem osizeFF_cons (k : String) (vs : List OVal) (rest : List (String × List OVal)) :
    osizeFF ((k, vs) :: rest) = osizeL vs + osizeFF rest := by simp [osizeFF]

theorem jsondecode_eq (σ : String → String) (j : JVal) :
    jsondecode σ j = decode (jsize j) σ j := rfl

theorem jsonencode_eq (cv : Bool) (v : OVal) (s : Bool) :
    jsonencode cv v s = runEnc (encode (osize v) cv v) s := rfl

theorem jsonencode_num (cv : Bool) (x : RD) (s : Bool) :
    jsonencode cv (.num x) s = (encode_numeric cv (.num x), s) := by
  rw [jsonencode_eq, osize_num]
  rfl

/-- `encode_numeric` on a finite double: the integral-emission test in
exact arithmetic, truncation toward zero on success, a plain floating
literal otherwise. -/
theorem encode_numeric_fin (cv : Bool) (q : ℚ) :
    encode_numeric cv (.num (.fin q)) =
      if |q - ⌊q⌋| < dblEps ∧ -999999 ≤ q ∧ q ≤ 999999 then
        .ok (.jnum (.jint (q.num.tdiv q.den)))
      else .ok (.jnum (.jdbl q)) := by
  show (if (rdLt (rdAbs (rdSub (rdFloor (.fin q)) (.fin q))) (.fin dblEps)
      && rdLe (.fin q) (.fin 999999) && rdLe (.fin (-999999)) (.fin q)) = true
    then _ else _) = _
  have hcomb : (rdLt (rdAbs (rdSub (rdFloor (.fin q)) (.fin q))) (.fin dblEps)
      && rdLe (.fin q) (.fin 999999) && rdLe (.fin (-999999)) (.fin q))
      = decide (|q - ⌊q⌋| < dblEps ∧ -999999 ≤ q ∧ q ≤ 999999) := by
    show (decide (|(⌊q⌋ : ℚ) - q| < dblEps) && decide (q ≤ 999999)
        && decide (-999999 ≤ q)) = _
    rw [abs_sub_comm]
    by_cases p1 : |q - (⌊q⌋ : ℚ)| < dblEps <;> by_cases p2 : -999999 ≤ q <;>
      by_cases p3 : q ≤ 999999 <;> simp [p1, p2, p3]
  rw [hcomb]
  by_cases hc : |q - ⌊q⌋| < dblEps ∧ -999999 ≤ q ∧ q ≤ 999999
  · rw [if_pos (decide_eq_true hc), if_pos hc]
    rfl
  · rw [if_neg (fun h => hc (of_decide_eq_true h)), if_neg hc]
    rfl

/-- `writer.Int64` truncation agrees with the floor for nonnegative
doubles. -/
theorem rdTrunc_nonneg (q : ℚ) (h : 0 ≤ q) : q.num.tdiv q.den = ⌊q⌋ := by
  rw [Int.tdiv_eq_ediv (Rat.num_nonneg.mpr h) (by positivity), ← Rat.floor_def]

/-- C5: for the scalar values NaN, +Inf and -Inf, encoding with
`ConvertInfAndNaN = true` writes the JSON token `null`, and with
`ConvertInfAndNaN = false` writes the literal tokens `NaN`, `Infinity`
and `-Infinity` respectively. -/
theorem C5_nan_inf_option_semantics :
    jsonencode true (.num .nan) true = (.ok .null, true) ∧
    jsonencode true (.num .pinf) true = (.ok .null, true) ∧
    jsonencode true (.num .ninf) true = (.ok .null, true) ∧
    jsonencode false (.num .nan) true = (.ok (.jnum .jnan), true) ∧
    jsonencode false (.num .pinf) true = (.ok (.jnum .jinf), true) ∧
    jsonencode false (.num .ninf) true = (.ok (.jnum .jninf), true) := by
  refine ⟨?_, ?_, ?_, ?_, ?_, ?_⟩ <;> (rw [jsonencode_num]; rfl)

/-- C4 counterexample: the double 2^-60 is not integral, yet the
epsilon-tolerant floor test fires (2^-60 < 2^-52) and the encoder emits
the bare integer literal `0` for it — refuting "v is emitted as an
integer literal if and only if v equals its floor exactly … and no
non-integral value is emitted as an integer literal". -/
theorem C4_counterexample :
    jsonencode true (.num (.fin (1 / 1152921504606846976))) true
      = (.ok (.jnum (.jint 0)), true) ∧
    (1 / 1152921504606846976 : ℚ) ≠ ((⌊(1 / 1152921504606846976 : ℚ)⌋ : ℤ) : ℚ) := by
  have h0 : (0 : ℚ) < 1 / 1152921504606846976 := by norm_num
  have hfl : ⌊(1 / 1152921504606846976 : ℚ)⌋ = 0 := by
    rw [Int.floor_eq_zero_iff]
    constructor <;> norm_num
  constructor
  · rw [jsonencode_num]
    show (encode_numeric true (.num (.fin (1 / 1152921504606846976))), true) = _
    rw [encode_numeric_fin, if_pos, rdTrunc_nonneg _ h0.le, hfl]
    rw [hfl]
    refine ⟨?_, by norm_num, by norm_num⟩
    rw [abs_of_pos (by push_cast; linarith)]
    norm_num [dblEps_eq]
  · rw [hfl]
    norm_num

/-- C4 (amended): a finite double is emitted as a bare integer literal
iff it is within machine epsilon (2^-52) of its floor — not exactly
integral — and lies in [-999999, 999999]; the boundary is inclusive at
999999 (`encode (999999.0)` is the integer literal `999999`,
`encode (1000000.0)` a floating literal). -/
theorem C4_amended (cv : Bool) (s : Bool) (q : ℚ) :
    ((∃ n : ℤ, (jsonencode cv (.num (.fin q)) s).1 = .ok (.jnum (.jint n))) ↔
      (|q - ⌊q⌋| < dblEps ∧ -999999 ≤ q ∧ q ≤ 999999)) ∧
    (jsonencode cv (.num (.fin 999999)) s).1 = .ok (.jnum (.jint 999999)) ∧
    (jsonencode cv (.num (.fin 1000000)) s).1 = .ok (.jnum (.jdbl 1000000)) := by
  refine ⟨?_, ?_, ?_⟩
  · rw [jsonencode_num]
    show (∃ n : ℤ, encode_numeric cv (.num (.fin q)) = .ok (.jnum (.jint n))) ↔ _
    rw [encode_numeric_fin]
    constructor
    · rintro ⟨n, hn⟩
      by_contra hc
      rw [if_neg hc] at hn
      simp at hn
    · intro h
      exact ⟨q.num.tdiv q.den, by rw [if_pos h]⟩
  · rw [jsonencode_num]
    show (encode_numeric cv (.num (.fin 999999)), s).1 = _
    rw [encode_numeric_fin, if_pos (by norm_num [dblEps_eq])]
    have : ((999999 : ℚ)).num.tdiv ((999999 : ℚ)).den = 999999 := by
      rw [rdTrunc_nonneg _ (by norm_num)]
      norm_num
    simp [this]
  · rw [jsonencode_num]
    show (encode_numeric cv (.num (.fin 1000000)), s).1 = _
    rw [encode_numeric_fin, if_neg]
    push_neg
    intro _ _
    norm_num

/-- C4 (amended) witness at the inclusive boundary. -/
theorem C4_amended_witness :
    (jsonencode true (.num (.fin 999999)) true).1 = .ok (.jnum (.jint 999999)) :=
  (C4_amended true true 0).2.1

/-- C8 counterexample: a call with an odd total argument count (a single
string payload) passes the argument check — refuting "a call whose total
argument count is odd is rejected as a usage error".  (The code rejects
even counts: payload plus name/value pairs makes a valid call odd.) -/
theorem C8_counterexample :
    [OctArg.strArg "0"].length % 2 = 1 ∧
    jsondecode_args [OctArg.strArg "0"] = .ok "0" :=
  ⟨rfl, rfl⟩

/-- C8 (amended): the decode entry point rejects an even total argument
count as a usage error (the payload plus (name, value) option pairs give
an odd total); with an odd count, a non-string first argument fails with
the argument-usage error, and a string first argument is accepted. -/
theorem C8_amended (args : List OctArg) :
    (args.length % 2 = 0 →
      jsondecode_args args = .error "print_usage: Invalid call to jsondecode") ∧
    (args.length % 2 = 1 → ∀ s : String, args.headD .otherArg = .strArg s →
      jsondecode_args args = .ok s) ∧
    (args.length % 2 = 1 → args.headD .otherArg = .otherArg →
      jsondecode_args args = .error "jsondecode: The input must be a character string") := by
  unfold jsondecode_args
  refine ⟨fun h => ?_, fun h s hs => ?_, fun h ho => ?_⟩
  · rw [if_pos (by rw [h]; rfl)]
  · rw [if_neg (by rw [h]; simp), hs]
  · rw [if_neg (by rw [h]; simp), ho]

/-- C8 (amended) witness: an even call is rejected, an odd call with a
string payload is accepted. -/
theorem C8_amended_witness :
    jsondecode_args [OctArg.strArg "1", OctArg.strArg "x"]
      = .error "print_usage: Invalid call to jsondecode" ∧
    jsondecode_args [OctArg.strArg "1"] = .ok "1" :=
  ⟨(C8_amended [OctArg.strArg "1", OctArg.strArg "x"]).1 rfl,
   (C8_amended [OctArg.strArg "1"]).2.1 rfl "1" rfl⟩

/-- C10: the JSON literal `null` decodes to the empty 0×0 double array at
top level, as an object member value, and as an element of a mixed
array — the same value as decoding `[]` — never NaN and never an
error. -/
theorem C10_null_decodes_to_empty (σ : String → String) (k : String) :
    jsondecode σ .null = .ok (.numArr [0, 0] []) ∧
    jsondecode σ (.jarr []) = .ok (.numArr [0, 0] []) ∧
    jsondecode σ (.jobj [(k, .null)]) = .ok (.smap [(σ k, .numArr [0, 0] [])]) ∧
    jsondecode σ (.jarr [.jstr "a", .null]) = .ok (.cell [.str "a", .numArr [0, 0] []]) := by
  refine ⟨?_, ?_, ?_, ?_⟩
  · rw [jsondecode_eq, jsize_null]
    rfl
  · rw [jsondecode_eq, jsize_jarr, jsizeL_nil]
    rfl
  · rw [jsondecode_eq, jsize_jobj, jsizeM_cons, jsize_null, jsizeM_nil]
    rfl
  · rw [jsondecode_eq, jsize_jarr, jsizeL_cons, jsizeL_cons, jsize_jstr,
      jsize_null, jsizeL_nil]
    rfl

/-- C9 counterexample: encoding a `containers.Map` whose contents fail to
encode exits with the error while the warning state is still `off`
(`false`), although it was `on` (`true`) before the call — refuting "the
warning state present before the call is restored on every exit path,
including when the internal call exits early with an error". -/
theorem C9_counterexample :
    jsonencode true (.cmap [("a", .unsupported)]) true
      = (.error "jsonencode: Unsupported type.", false) ∧ (false : Bool) ≠ true := by
  constructor
  · rw [jsonencode_eq, osize_cmap, osizeF_cons, osize_unsupported, osizeF_nil]
    rfl
  · decide

/-- C9 (amended): around the internal struct-encoding call for a
`containers.Map` the warning is switched off; on successful return it is
unconditionally switched on — regardless of the state before the call —
and on an error exit the switch-on is skipped, leaving the state as the
failed internal call left it. -/
theorem C9_amended (fuel : ℕ) (cv : Bool) (pairs : List (String × OVal)) (s0 : Bool) :
    (∀ r s1,
      runEnc (encode_struct (encode fuel cv) (cmapInnerStruct pairs)) false = (.ok r, s1) →
      runEnc (encode (fuel + 1) cv (.cmap pairs)) s0 = (.ok r, true)) ∧
    (∀ e s1,
      runEnc (encode_struct (encode fuel cv) (cmapInnerStruct pairs)) false = (.error e, s1) →
      runEnc (encode (fuel + 1) cv (.cmap pairs)) s0 = (.error e, s1)) := by
  have hrun : runEnc (encode (fuel + 1) cv (.cmap pairs)) s0 =
      (match runEnc (encode_struct (encode fuel cv) (cmapInnerStruct pairs)) false with
       | (.ok r, _) => (.ok r, true)
       | (.error e, s1) => (.error e, s1)) := by
    show runEnc (setWarnState false >>= fun _ =>
      encode_struct (encode fuel cv) (cmapInnerStruct pairs) >>= fun r =>
      setWarnState true >>= fun _ => pure r) s0 = _
    rw [runEnc_bind, runEnc_setWarnState]
    show runEnc (encode_struct (encode fuel cv) (cmapInnerStruct pairs) >>= fun r =>
      setWarnState true >>= fun _ => pure r) false = _
    rw [runEnc_bind]
    rcases hi : runEnc (encode_struct (encode fuel cv) (cmapInnerStruct pairs)) false
      with ⟨r, s1⟩
    cases r <;> rfl
  constructor
  · intro r s1 h
    rw [hrun, h]
  · intro e s1 h
    rw [hrun, h]

/-- C9 (amended) witness: a successfully encoded map turns the warning
on although it was off before the call. -/
theorem C9_amended_witness :
    runEnc (encode (2 + 1) true (.cmap [("a", .bool true)])) false
      = (.ok (.jobj [("a", .jbool true)]), true) :=
  (C9_amended 2 true [("a", .bool true)] false).1
    (.jobj [("a", .jbool true)]) false rfl

/-- C3 evaluation: the well-formed JSON `[[{"a":1}]]` fails to decode.
The inner object array decodes to a struct array; the struct array is
not a cell, so it passes every rejection check of
`decode_array_of_arrays`, and the subsequent `array_value ()` call on it
raises the wrong-type-argument error. -/
theorem C3_wellformed_json_decode_error :
    jsondecode (fun s => s) (.jarr [.jarr [.jobj [("a", .jnum (.jint 1))]]])
      = .error "octave_base_value::array_value: wrong type argument" := by
  rw [jsondecode_eq]
  have h : jsize (.jarr [.jarr [.jobj [("a", .jnum (.jint 1))]]]) = 7 := by
    simp [jsize_jarr, jsizeL_cons, jsizeL_nil, jsize_jobj, jsizeM_cons,
      jsizeM_nil, jsize_jnum]
  rw [h]
  rfl

/-- C7: encoding the 2×3 character matrix `["foo";"bar"]` (column-major
data `fbooar`) writes exactly `["foo","bar"]`; decoding `["foo","bar"]`
yields a cell of two scalar strings, not a character matrix — encode and
decode are not inverses on multi-row character arrays. -/
theorem C7_char_matrix_asymmetry :
    jsonencode true (.charMat [2, 3] ['f', 'b', 'o', 'a', 'o', 'r']) true
      = (.ok (.jarr [.jstr "foo", .jstr "bar"]), true) ∧
    jsondecode (fun s => s) (.jarr [.jstr "foo", .jstr "bar"])
      = .ok (.cell [.str "foo", .str "bar"]) ∧
    OVal.cell [.str "foo", .str "bar"]
      ≠ OVal.charMat [2, 3] ['f', 'b', 'o', 'a', 'o', 'r'] := by
  refine ⟨?_, ?_, ?_⟩
  · rw [jsonencode_eq, osize_charMat]
    rfl
  · rw [jsondecode_eq, jsize_jarr, jsizeL_cons, jsize_jstr, jsizeL_cons,
      jsize_jstr, jsizeL_nil]
    rfl
  · intro h
    exact OVal.noConfusion h

/-! ## Decode-side structure lemmas -/

theorem mapM_ok_of_forall {α β : Type} (l : List α) (f : α → Except String β)
    (g : α → β) (h : ∀ a ∈ l, f a = .ok (g a)) :
    l.mapM f = .ok (l.map g) := by
  induction l with
  | nil => rfl
  | cons a rest ih =>
    rw [List.mapM_cons, h a (by simp)]
    rw [ih (fun x hx => h x (by simp [hx]))]
    rfl

theorem decodeList_cons (dec : JVal → Except String OVal) (e : JVal)
    (rest : List JVal) :
    decodeList dec (e :: rest) =
      (dec e).bind (fun v => (decodeList dec rest).map (fun vs => v :: vs)) := rfl

theorem decodeList_length (dec : JVal → Except String OVal) (es : List JVal)
    (cells : List OVal) (h : decodeList dec es = .ok cells) :
    cells.length = es.length := by
  induction es generalizing cells with
  | nil =>
    cases h
    rfl
  | cons e rest ih =>
    rw [decodeList_cons] at h
    rcases he : dec e with v | v <;> rw [he] at h
    · cases h
    · rcases hr : decodeList dec rest with vs | vs <;> rw [hr] at h
      · cases h
      · cases h
        simp [ih vs hr]

theorem decodeList_ok_of_forall (dec : JVal → Except String OVal)
    (es : List JVal) (g : JVal → OVal) (h : ∀ e ∈ es, dec e = .ok (g e)) :
    decodeList dec es = .ok (es.map g) := by
  induction es with
  | nil => rfl
  | cons e rest ih =>
    rw [decodeList_cons, h e (by simp),
      ih (fun x hx => h x (by simp [hx]))]
    rfl

/-- Classification of a non-empty all-numeric array: every element is a
Number (or Null), so `decode_array` takes the numeric branch. -/
theorem decode_array_numeric (dec : JVal → Except String OVal)
    (es : List JVal) (hne : es ≠ [])
    (hnum : ∀ e ∈ es, kindOf e = RKind.kNull ∨ kindOf e = RKind.kNumber) :
    decode_array dec es = .ok (decode_numeric_array es) := by
  rcases es with _ | ⟨e, rest⟩
  · exact absurd rfl hne
  · have hall : (e :: rest).all
        (fun x => kindOf x == RKind.kNull || kindOf x == RKind.kNumber) = true := by
      rw [List.all_eq_true]
      intro x hx
      rcases hnum x hx with h | h <;> simp [h]
    simp only [decode_array, List.isEmpty_cons, Bool.false_eq_true, if_false, hall,
      if_true]

/-- Classification of a non-empty array whose elements are all arrays:
`decode_array` decodes every element and hands the cell to
`decode_array_of_arrays`. -/
theorem decode_array_of_jarrs (dec : JVal → Except String OVal)
    (es : List JVal) (hne : es ≠ [])
    (harr : ∀ e ∈ es, ∃ l, e = .jarr l) :
    decode_array dec es = (decodeList dec es).bind decode_array_of_arrays := by
  rcases es with _ | ⟨e, rest⟩
  · exact absurd rfl hne
  · rcases harr e (by simp) with ⟨l0, rfl⟩
    have hnotnum : (JVal.jarr l0 :: rest).all
        (fun x => kindOf x == RKind.kNull || kindOf x == RKind.kNumber) = false := by
      simp [kindOf]
    have hsame : (JVal.jarr l0 :: rest).all
        (fun x => sameKind (kindOf x) (kindOf ((JVal.jarr l0 :: rest).headD default)))
          = true := by
      rw [List.all_eq_true]
      intro x hx
      rcases List.mem_cons.mp hx with hx | hx
      · simp [hx, sameKind]
      · rcases harr x (List.mem_cons_of_mem _ hx) with ⟨lx, rfl⟩
        simp [kindOf, sameKind]
    simp only [decode_array, List.isEmpty_cons, Bool.false_eq_true, if_false,
      hnotnum, hsame, if_true]
    rfl

/-- When every decoded element passes the homogeneity checks (no cells,
equal non-degenerate dimensions `s`, uniform logical kind), the
array-of-arrays decoder builds an `NDArray` of shape
`normDims (m :: s)` whose column-major datum at linear position `p` is
flattened datum `p / m` of element `p % m` — interleaving corresponding
positions across the `m` elements. -/
theorem decode_array_of_arrays_build (cells : List OVal) (s : List ℕ)
    (vals : ℕ → List RD) (hne : cells ≠ [])
    (hnocell : ∀ c ∈ cells, iscellO c = false)
    (hdims : ∀ c ∈ cells, dimsOf c = s)
    (hs : s ≠ [0, 0])
    (hbool : ∀ c ∈ cells, isBoolMatrixO c = isBoolMatrixO (cells.headD default))
    (hvals : ∀ i < cells.length, arrayValueO (cells.getD i default) = .ok (vals i)) :
    decode_array_of_arrays cells =
      .ok (.numArr (normDims (cells.length :: s))
        ((List.range ((normDims (cells.length :: s)).prod / cells.length
            * cells.length)).map
          (fun p => (vals (p % cells.length)).getD (p / cells.length) default))) := by
  have hm : 0 < cells.length := by
    rcases cells with _ | ⟨c, cr⟩
    · exact absurd rfl hne
    · simp
  have hhead : dimsOf (cells.headD default) = s := by
    rcases cells with _ | ⟨c, cr⟩
    · exact absurd rfl hne
    · exact hdims c (by simp)
  have hhead2 : dimsOf (cells.head?.getD default) = s := by
    rw [← List.headD_eq_head?_getD]
    exact hhead
  have hany : (cells.any (fun c =>
      iscellO c || dimsOf c != dimsOf (cells.headD default)
        || dimsOf (cells.headD default) == [0, 0]
        || isBoolMatrixO c != isBoolMatrixO (cells.headD default))) = false := by
    rw [List.any_eq_false]
    intro c hc
    simp [hnocell c hc, hdims c hc, hhead2, hbool c hc, hs]
  show (if (cells.any _) = true then _ else _) = _
  rw [hany]
  simp only [Bool.false_eq_true, if_false]
  rw [mapM_ok_of_forall _ _
    (fun p => (vals (p % cells.length)).getD (p / cells.length) default)
    (fun p _ => by rw [hvals (p % cells.length) (Nat.mod_lt p hm)]; rfl)]
  rw [hhead]
  rfl

/-- C2 counterexample: decoding `[[1,2],[3,4]]` yields the 2×2 array
with column-major data `1,3,2,4` — element 0's data `1,2` is interleaved
with element 1's data `3,4`, not laid out first as the claim's
element-major order (`1,2,3,4`) would require. -/
theorem C2_counterexample :
    jsondecode (fun s => s)
      (.jarr [.jarr [.jnum (.jint 1), .jnum (.jint 2)],
              .jarr [.jnum (.jint 3), .jnum (.jint 4)]])
      = .ok (.numArr [2, 2] [.fin 1, .fin 3, .fin 2, .fin 4]) ∧
    ([RD.fin 1, .fin 3, .fin 2, .fin 4] : List RD)
      ≠ [RD.fin 1, .fin 2] ++ [RD.fin 3, .fin 4] := by
  constructor
  · rw [jsondecode_eq]
    have h : jsize (.jarr [.jarr [.jnum (.jint 1), .jnum (.jint 2)],
        .jarr [.jnum (.jint 3), .jnum (.jint 4)]]) = 10 := by
      simp [jsize_jarr, jsizeL_cons, jsizeL_nil, jsize_jnum]
    rw [h]
    rfl
  · intro h
    have h1 : ([RD.fin 3, .fin 2, .fin 4] : List RD) = [RD.fin 2, .fin 3, .fin 4] := by
      injection h
    have h2 : RD.fin 3 = RD.fin 2 := by injection h1
    have h3 : (3 : ℚ) = 2 := by injection h2
    norm_num at h3

/-- C2 (amended): for a JSON array of `m` arrays whose decoded elements
all pass the homogeneity checks (none is a cell, all share the same
non-degenerate dimension vector `s`, uniform numeric-vs-boolean kind),
decode returns a double array of shape `normDims (m :: s)` whose
column-major datum at linear position `p` is flattened datum `p / m` of
element `p % m`: corresponding positions are interleaved across the
elements (element `k` occupies the slice with first index `k`), rather
than element 0's data being laid out before element 1's. -/
theorem C2_amended (fuel : ℕ) (σ : String → String) (es : List JVal)
    (cells : List OVal) (s : List ℕ) (vals : ℕ → List RD)
    (hne : es ≠ [])
    (harr : ∀ e ∈ es, ∃ l, e = .jarr l)
    (hdec : decodeList (decode fuel σ) es = .ok cells)
    (hnocell : ∀ c ∈ cells, iscellO c = false)
    (hdims : ∀ c ∈ cells, dimsOf c = s)
    (hs : s ≠ [0, 0])
    (hbool : ∀ c ∈ cells, isBoolMatrixO c = isBoolMatrixO (cells.headD default))
    (hvals : ∀ i < cells.length, arrayValueO (cells.getD i default) = .ok (vals i)) :
    decode (fuel + 1) σ (.jarr es) =
      .ok (.numArr (normDims (cells.length :: s))
        ((List.range ((normDims (cells.length :: s)).prod / cells.length
            * cells.length)).map
          (fun p => (vals (p % cells.length)).getD (p / cells.length) default))) := by
  have hlen := decodeList_length _ _ _ hdec
  have hcne : cells ≠ [] := by
    intro hc
    subst hc
    exact hne (List.length_eq_zero.mp hlen.symm)
  show decode_array (decode fuel σ) es = _
  rw [decode_array_of_jarrs _ _ hne harr, hdec]
  show decode_array_of_arrays cells = _
  exact decode_array_of_arrays_build cells s vals hcne hnocell hdims hs hbool hvals

/-- C2 (amended) witness: `[[1,2],[3,4]]` decodes to the 2×2 array with
interleaved column-major data `1,3,2,4`. -/
theorem C2_amended_witness :
    decode (3 + 1) (fun s => s)
      (.jarr [.jarr [.jnum (.jint 1), .jnum (.jint 2)],
              .jarr [.jnum (.jint 3), .jnum (.jint 4)]])
      = .ok (.numArr [2, 2] [.fin 1, .fin 3, .fin 2, .fin 4]) := by
  have h := C2_amended 3 (fun s => s)
    [.jarr [.jnum (.jint 1), .jnum (.jint 2)], .jarr [.jnum (.jint 3), .jnum (.jint 4)]]
    [.numArr [2, 1] [.fin 1, .fin 2], .numArr [2, 1] [.fin 3, .fin 4]]
    [2, 1]
    (fun i => [[RD.fin 1, .fin 2], [RD.fin 3, .fin 4]].getD i [])
    (by intro h; cases h)
    (by
      intro e he
      rcases List.mem_cons.mp he with rfl | he
      · exact ⟨_, rfl⟩
      · rcases List.mem_cons.mp he with rfl | he
        · exact ⟨_, rfl⟩
        · cases he)
    rfl
    (by
      intro c hc
      rcases List.mem_cons.mp hc with rfl | hc
      · rfl
      · rcases List.mem_cons.mp hc with rfl | hc
        · rfl
        · cases hc)
    (by
      intro c hc
      rcases List.mem_cons.mp hc with rfl | hc
      · rfl
      · rcases List.mem_cons.mp hc with rfl | hc
        · rfl
        · cases hc)
    (by decide)
    (by
      intro c hc
      rcases List.mem_cons.mp hc with rfl | hc
      · rfl
      · rcases List.mem_cons.mp hc with rfl | hc
        · rfl
        · cases hc)
    (by
      intro i hi
      rcases i with _ | (_ | i)
      · rfl
      · rfl
      · simp at hi
        omega)
  exact h.trans (by rfl)

/-! ## Struct codec lemmas -/

/-- `encode_numeric` never fails on a double scalar. -/
theorem encode_numeric_num_isOk (cv : Bool) (x : RD) :
    encode_numeric cv (.num x) = .ok (encNumPure cv x) := by
  cases x with
  | fin q =>
    have h := encode_numeric_fin cv q
    unfold encNumPure
    by_cases hc : |q - ⌊q⌋| < dblEps ∧ -999999 ≤ q ∧ q ≤ 999999
    · rw [if_pos hc] at h
      rw [h]
    · rw [if_neg hc] at h
      rw [h]
  | pinf => cases cv <;> rfl
  | ninf => cases cv <;> rfl
  | nan => cases cv <;> rfl
  | na => cases cv <;> rfl

/-- Encoding a simple scalar succeeds, writes `encScalar`, and leaves the
warning state untouched. -/
theorem encode_simpleScalar (k : ℕ) (cv : Bool) (v : OVal)
    (hv : simpleScalar v) (st : Bool) :
    runEnc (encode (k + 1) cv v) st = (.ok (encScalar cv v), st) := by
  rcases hv with ⟨b, rfl⟩ | ⟨x, rfl⟩ | ⟨s, rfl⟩
  · rfl
  · show runEnc (liftE (encode_numeric cv (.num x))) st = _
    rw [encode_numeric_num_isOk, runEnc_liftE]
    rfl
  · rcases s with ⟨chars⟩
    cases chars <;> rfl

/-- Running a `mapM` of stateless successful computations. -/
theorem runEnc_mapM_ok {α β : Type} (l : List α) (f : α → EncM β) (g : α → β)
    (h : ∀ a ∈ l, ∀ st : Bool, runEnc (f a) st = (.ok (g a), st)) (s : Bool) :
    runEnc (l.mapM f) s = (.ok (l.map g), s) := by
  induction l generalizing s with
  | nil => rfl
  | cons a rest ih =>
    rw [List.mapM_cons, runEnc_bind, h a (by simp) s]
    show runEnc (rest.mapM f >>= fun xs => pure (g a :: xs)) s = _
    rw [runEnc_bind, ih (fun x hx st => h x (by simp [hx]) st) s]
    rfl

/-- `equals` on field-name vectors decides list equality. -/
theorem svEquals_eq_true_iff (a b : List String) : svEquals a b = true ↔ a = b := by
  induction a generalizing b with
  | nil =>
    cases b with
    | nil => simp [svEquals]
    | cons x xs => simp [svEquals]
  | cons x xs ih =>
    cases b with
    | nil => simp [svEquals]
    | cons y ys =>
      unfold svEquals at ih ⊢
      simp only [List.length_cons, List.zip_cons_cons, List.all_cons,
        Bool.and_eq_true, beq_iff_eq, List.cons.injEq] at *
      constructor
      · rintro ⟨h1, h2, h3⟩
        refine ⟨h2, (ih ys).mp ⟨by omega, h3⟩⟩
      · rintro ⟨h1, h2⟩
        rcases (ih ys).mpr h2 with ⟨h3, h4⟩
        exact ⟨by omega, h1, h4⟩

/-- Classification of a non-empty array whose elements are all objects:
`decode_array` decodes every element and hands the cell to
`decode_object_array`. -/
theorem decode_array_of_jobjs (dec : JVal → Except String OVal)
    (es : List JVal) (hne : es ≠ [])
    (hobj : ∀ e ∈ es, ∃ m, e = .jobj m) :
    decode_array dec es = (decodeList dec es).bind decode_object_array := by
  rcases es with _ | ⟨e, rest⟩
  · exact absurd rfl hne
  · rcases hobj e (by simp) with ⟨m0, rfl⟩
    have hnotnum : (JVal.jobj m0 :: rest).all
        (fun x => kindOf x == RKind.kNull || kindOf x == RKind.kNumber) = false := by
      simp [kindOf]
    have hsame : (JVal.jobj m0 :: rest).all
        (fun x => sameKind (kindOf x) (kindOf ((JVal.jobj m0 :: rest).headD default)))
          = true := by
      rw [List.all_eq_true]
      intro x hx
      rcases List.mem_cons.mp hx with hx | hx
      · simp [hx, sameKind]
      · rcases hobj x (List.mem_cons_of_mem _ hx) with ⟨mx, rfl⟩
        simp [kindOf, sameKind]
    simp only [decode_array, List.isEmpty_cons, Bool.false_eq_true, if_false,
      hnotnum, hsame, if_true]
    rfl

/-- `decode_object_array` on scalar structs with identical ordered field
names: repack field-major into a struct array with element 0's field
order. -/
theorem except_bind_ok {α β : Type} (a : α) (f : α → Except String β) :
    (Except.ok a : Except String α) >>= f = f a := rfl

theorem decode_object_array_same (maps : List (List (String × OVal)))
    (hne : maps ≠ [])
    (hsame : ∀ f ∈ maps, f.map (fun p => p.1) = (maps.headD []).map (fun p => p.1)) :
    decode_object_array (maps.map OVal.smap) =
      .ok (.structArr maps.length
        (((maps.headD []).map (fun p => p.1)).map (fun nm =>
          (nm, maps.map (fun f => getfieldO f nm))))) := by
  rcases maps with _ | ⟨m0, mr⟩
  · exact absurd rfl hne
  · have hmapM : ((m0 :: mr).map OVal.smap).mapM scalarMapValueO
        = .ok (((m0 :: mr).map OVal.smap).map
            (fun c => match c with | .smap f => f | _ => [])) := by
      apply mapM_ok_of_forall
      intro a ha
      rcases List.mem_map.mp ha with ⟨f, _, rfl⟩
      rfl
    have hmm : ((m0 :: mr).map OVal.smap).map
        (fun c => match c with | .smap f => f | _ => []) = m0 :: mr := by
      rw [List.map_map]
      exact List.map_id' _
    unfold decode_object_array
    rw [List.map_cons, List.headD_cons,
      show scalarMapValueO (OVal.smap m0) = .ok m0 from rfl, except_bind_ok,
      ← List.map_cons OVal.smap m0 mr, hmapM, hmm, except_bind_ok]
    have hall : (m0 :: mr).all
        (fun f => svEquals (m0.map (fun p => p.1)) (f.map (fun p => p.1))) = true := by
      rw [List.all_eq_true]
      intro f hf
      exact (svEquals_eq_true_iff _ _).mpr (hsame f hf).symm
    show (if _ then _ else _) = _
    rw [hall]
    simp only [if_true]
    simp [List.length_map, List.headD_cons]

theorem decode_object_array_diff (maps : List (List (String × OVal)))
    (hne : maps ≠ [])
    (hdiff : ∃ f ∈ maps, f.map (fun p => p.1) ≠ (maps.headD []).map (fun p => p.1)) :
    decode_object_array (maps.map OVal.smap) = .ok (.cell (maps.map OVal.smap)) := by
  rcases maps with _ | ⟨m0, mr⟩
  · exact absurd rfl hne
  · have hmapM : ((m0 :: mr).map OVal.smap).mapM scalarMapValueO
        = .ok (((m0 :: mr).map OVal.smap).map
            (fun c => match c with | .smap f => f | _ => [])) := by
      apply mapM_ok_of_forall
      intro a ha
      rcases List.mem_map.mp ha with ⟨f, _, rfl⟩
      rfl
    have hmm : ((m0 :: mr).map OVal.smap).map
        (fun c => match c with | .smap f => f | _ => []) = m0 :: mr := by
      rw [List.map_map]
      exact List.map_id' _
    unfold decode_object_array
    rw [List.map_cons, List.headD_cons,
      show scalarMapValueO (OVal.smap m0) = .ok m0 from rfl, except_bind_ok,
      ← List.map_cons OVal.smap m0 mr, hmapM, hmm, except_bind_ok]
    have hall : (m0 :: mr).all
        (fun f => svEquals (m0.map (fun p => p.1)) (f.map (fun p => p.1))) = false := by
      rcases hdiff with ⟨f, hf, hne2⟩
      rw [List.all_eq_false]
      refine ⟨f, hf, ?_⟩
      intro hcontra
      exact hne2 (((svEquals_eq_true_iff _ _).mp hcontra).symm)
    show (if _ then _ else _) = _
    rw [hall]
    simp only [Bool.false_eq_true, if_false]

/-- `encode_struct` on a struct value with `n ≥ 1` elements and
simple-scalar field values: writes one object per element (one member per
field, in field order), wrapped in an array exactly when `n > 1`. -/
theorem encode_struct_core (k : ℕ) (cv : Bool) (n : ℕ)
    (fields : List (String × List OVal)) (st : Bool) (obj : OVal)
    (hmv : map_valueO obj = .ok (n, fields))
    (hn : 0 < n)
    (hsimple : ∀ p ∈ fields, ∀ i < n, simpleScalar (p.2.getD i default)) :
    runEnc (encode_struct (encode (k + 1) cv) obj) st =
      (.ok (if 1 < n then
          .jarr ((List.range n).map (fun i =>
            .jobj (fields.map (fun p => (p.1, encScalar cv (p.2.getD i default))))))
        else
          .jobj (fields.map (fun p => (p.1, encScalar cv (p.2.getD 0 default))))), st) := by
  have hinner : ∀ i ∈ List.range n, ∀ st2 : Bool,
      runEnc (ExceptT.map JVal.jobj (fields.mapM (fun p =>
        ExceptT.map (fun jv => (p.1, jv))
          (encode (k + 1) cv (p.2.getD i default))))) st2
        = (.ok (.jobj (fields.map (fun p =>
            (p.1, encScalar cv (p.2.getD i default))))), st2) := by
    intro i hi st2
    exact runEnc_ETmap_ok _ _ _ _ _
      (runEnc_mapM_ok fields _
        (fun p => (p.1, encScalar cv (p.2.getD i default)))
        (fun p hp st3 =>
          runEnc_ETmap_ok _ _ _ _ _
            (encode_simpleScalar k cv _ (hsimple p hp i (List.mem_range.mp hi)) st3))
        st2)
  show runEnc (liftE (map_valueO obj) >>= fun mv =>
    (List.range mv.1).mapM (fun i =>
      ExceptT.map JVal.jobj (mv.2.mapM (fun p =>
        ExceptT.map (fun jv => (p.1, jv))
          (encode (k + 1) cv (p.2.getD i default))))) >>= fun objs =>
    if 1 < mv.1 then pure (.jarr objs)
    else
      match objs with
      | [o] => pure o
      | _ => throw "jsonencode: struct array without elements writes no value") st = _
  rw [hmv, runEnc_bind_ok _ (n, fields) st _ st (runEnc_liftE _ st)]
  rw [runEnc_bind_ok _ ((List.range n).map (fun i =>
      JVal.jobj (fields.map (fun p => (p.1, encScalar cv (p.2.getD i default)))))) st _ st
    (runEnc_mapM_ok _ _ _ hinner st)]
  rcases n with _ | n'
  · exact absurd hn (by omega)
  · by_cases h2 : 1 < n' + 1
    · rw [if_pos h2, if_pos h2, runEnc_pure]
    · have h1 : n' = 0 := by omega
      subst h1
      rw [if_neg h2]
      rfl

/-- C6: encoding a struct value with exactly 1 element writes a single
JSON object with one member per field; with `n ≥ 2` elements it writes a
JSON array of `n` objects; decoding a JSON array of objects yields a
struct array with element 0's ordered field set and per-field values
when every object's decoded field-name sequence is identical (order
included), and yields the cell of scalar structs otherwise.  (The field
values here are simple scalars; the decoded field sequences are the
sanitizer's output.) -/
theorem C6_struct_arity (fuel : ℕ) (cv st : Bool) (σ : String → String) :
    (∀ fields : List (String × OVal),
      (∀ p ∈ fields, simpleScalar p.2) →
      runEnc (encode (fuel + 2) cv (.smap fields)) st =
        (.ok (.jobj (fields.map (fun p => (p.1, encScalar cv p.2)))), st)) ∧
    (∀ (n : ℕ) (fields : List (String × List OVal)),
      2 ≤ n →
      (∀ p ∈ fields, ∀ i < n, simpleScalar (p.2.getD i default)) →
      runEnc (encode (fuel + 2) cv (.structArr n fields)) st =
        (.ok (.jarr ((List.range n).map (fun i =>
          .jobj (fields.map (fun p => (p.1, encScalar cv (p.2.getD i default))))))),
         st)) ∧
    (∀ (es : List JVal) (maps : List (List (String × OVal))),
      es ≠ [] →
      (∀ e ∈ es, ∃ m, e = .jobj m) →
      decodeList (decode fuel σ) es = .ok (maps.map OVal.smap) →
      (∀ f ∈ maps, f.map (fun p => p.1) = (maps.headD []).map (fun p => p.1)) →
      decode (fuel + 1) σ (.jarr es) =
        .ok (.structArr maps.length
          (((maps.headD []).map (fun p => p.1)).map (fun nm =>
            (nm, maps.map (fun f => getfieldO f nm)))))) ∧
    (∀ (es : List JVal) (maps : List (List (String × OVal))),
      es ≠ [] →
      (∀ e ∈ es, ∃ m, e = .jobj m) →
      decodeList (decode fuel σ) es = .ok (maps.map OVal.smap) →
      (∃ f ∈ maps, f.map (fun p => p.1) ≠ (maps.headD []).map (fun p => p.1)) →
      decode (fuel + 1) σ (.jarr es) = .ok (.cell (maps.map OVal.smap))) := by
  refine ⟨?_, ?_, ?_, ?_⟩
  · intro fields hsimple
    show runEnc (encode_struct (encode (fuel + 1) cv) (.smap fields)) st = _
    rw [encode_struct_core (fuel) cv 1 (fields.map (fun p => (p.1, [p.2]))) st
      (.smap fields) (by rfl) (by omega)
      (by
        intro p hp i hi
        rcases List.mem_map.mp hp with ⟨q, hq, rfl⟩
        have : i = 0 := by omega
        subst this
        exact hsimple q hq)]
    rw [if_neg (by omega)]
    rw [List.map_map]
    rfl
  · intro n fields h2 hsimple
    show runEnc (encode_struct (encode (fuel + 1) cv) (.structArr n fields)) st = _
    rw [encode_struct_core (fuel) cv n fields st (.structArr n fields) rfl
      (by omega) hsimple]
    rw [if_pos (by omega)]
  · intro es maps hne hobj hdec hsame
    have hlen := decodeList_length _ _ _ hdec
    have hmne : maps ≠ [] := by
      intro hc
      subst hc
      simp at hlen
      exact hne (List.length_eq_zero.mp hlen.symm)
    show decode_array (decode fuel σ) es = _
    rw [decode_array_of_jobjs _ _ hne hobj, hdec]
    show decode_object_array (maps.map OVal.smap) = _
    exact decode_object_array_same maps hmne hsame
  · intro es maps hne hobj hdec hdiff
    have hlen := decodeList_length _ _ _ hdec
    have hmne : maps ≠ [] := by
      intro hc
      subst hc
      simp at hlen
      exact hne (List.length_eq_zero.mp hlen.symm)
    show decode_array (decode fuel σ) es = _
    rw [decode_array_of_jobjs _ _ hne hobj, hdec]
    show decode_object_array (maps.map OVal.smap) = _
    exact decode_object_array_diff maps hmne hdiff

/-- C6 witness: a one-element struct encodes to a single object, and a
two-object array with identical field sequences decodes to a 2-element
struct array. -/
theorem C6_struct_arity_witness :
    runEnc (encode (0 + 2) true (.smap [("a", .bool true)])) true
      = (.ok (.jobj [("a", .jbool true)]), true) ∧
    decode (2 + 1) (fun s => s)
      (.jarr [.jobj [("a", .jbool true)], .jobj [("a", .jbool false)]])
      = .ok (.structArr 2 [("a", [.bool true, .bool false])]) := by
  constructor
  · refine ((C6_struct_arity 0 true true (fun s => s)).1 [("a", .bool true)] ?_).trans
      (by rfl)
    intro p hp
    rcases List.mem_cons.mp hp with rfl | hp
    · exact Or.inl ⟨true, rfl⟩
    · cases hp
  · refine ((C6_struct_arity 2 true true (fun s => s)).2.2.1
      [.jobj [("a", .jbool true)], .jobj [("a", .jbool false)]]
      [[("a", .bool true)], [("a", .bool false)]]
      ?_ ?_ rfl ?_).trans (by rfl)
    · intro h
      cases h
    · intro e he
      rcases List.mem_cons.mp he with rfl | he
      · exact ⟨_, rfl⟩
      · rcases List.mem_cons.mp he with rfl | he
        · exact ⟨_, rfl⟩
        · cases he
    · intro f hf
      rcases List.mem_cons.mp hf with rfl | hf
      · rfl
      · rcases List.mem_cons.mp hf with rfl | hf
        · rfl
        · cases hf

/-! ## Round-trip lemmas (C1) -/

/-- An exactly integral double in range is written as its integer
literal. -/
theorem encode_numeric_int (cv : Bool) (n : ℤ)
    (h1 : -999999 ≤ n) (h2 : n ≤ 999999) :
    encode_numeric cv (.num (.fin n)) = .ok (.jnum (.jint n)) := by
  rw [encode_numeric_fin, if_pos]
  · rw [Rat.num_intCast, Rat.den_intCast, Nat.cast_one, Int.tdiv_one]
  · refine ⟨?_, ?_, ?_⟩
    · rw [Int.floor_intCast]
      simp
      rw [dblEps_eq]
      norm_num
    · exact_mod_cast h1
    · exact_mod_cast h2

/-- The scalar node written for a faithful double decodes back to the
same double. -/
theorem encNumPure_good (cv : Bool) (x : RD) (hx : goodRD x) :
    ∃ jn : JNum, encNumPure cv x = .jnum jn ∧ decode_number jn = x := by
  rcases hx with ⟨q, rfl, hq⟩
  unfold encNumPure
  rw [encode_numeric_fin]
  by_cases hc : |q - ⌊q⌋| < dblEps ∧ -999999 ≤ q ∧ q ≤ 999999
  · rw [if_pos hc]
    refine ⟨.jint (q.num.tdiv q.den), rfl, ?_⟩
    have hz := hq hc
    have h0 : q.num.tdiv q.den = ⌊q⌋ := by
      rw [hz, Rat.num_intCast, Rat.den_intCast, Nat.cast_one, Int.tdiv_one,
        Int.floor_intCast]
    show RD.fin (q.num.tdiv q.den : ℚ) = RD.fin q
    rw [h0, ← hz]
  · rw [if_neg hc]
    exact ⟨.jdbl q, rfl, rfl⟩

theorem getD_map_range {β : Type} (n i : ℕ) (f : ℕ → β) (dfl : β) (h : i < n) :
    ((List.range n).map f).getD i dfl = f i := by
  rw [List.getD_eq_getElem _ _ (by simp [h]), List.getElem_map, List.getElem_range]

theorem map_getD_range {β : Type} (l : List β) (dfl : β) :
    (List.range l.length).map (fun p => l.getD p dfl) = l := by
  apply List.ext_getElem
  · simp
  · intro i h1 h2
    rw [List.getElem_map, List.getElem_range, List.getD_eq_getElem _ _ h2]

/-- `resid D j data` has `data.length / D` entries. -/
theorem resid_length (D j : ℕ) (data : List RD) :
    (resid D j data).length = data.length / D := by
  simp [resid]

/-- Entry `t` of the residue slice. -/
theorem resid_getD (D j t : ℕ) (data : List RD) (h : t < data.length / D) :
    (resid D j data).getD t default = data.getD (j + D * t) default := by
  rw [resid, getD_map_range _ _ _ _ h]

/-- `num2cellSlice` along a dimension with no preceding non-singleton
extent is the residue slice. -/
theorem num2cellSlice_one (d : List ℕ) (t j : ℕ) (data : List RD)
    (hP : (d.take t).prod = 1) :
    num2cellSlice d t j data = resid (d.getD t 1) j data := by
  unfold num2cellSlice resid
  rw [hP]
  simp only [one_mul, List.range_succ, List.range_zero, List.nil_append,
    List.map_cons, List.map_nil]
  rw [← List.map_eq_flatMap]
  apply List.map_congr_left
  intro hi _
  norm_num

theorem numOnes_append (a b : List ℕ) : numOnes (a ++ b) = numOnes a + numOnes b := by
  simp [numOnes, List.filter_append]

theorem numOnes_replicate_one (n : ℕ) : numOnes (List.replicate n 1) = n := by
  simp [numOnes, List.filter_replicate]

theorem numOnes_of_ge_two (l : List ℕ) (h : ∀ d ∈ l, 2 ≤ d) : numOnes l = 0 := by
  simp only [numOnes, List.length_eq_zero]
  rw [List.filter_eq_nil_iff]
  intro d hd
  have := h d hd
  simp
  omega

theorem firstNonOne_cons_ne (d : ℕ) (rest : List ℕ) (h : d ≠ 1) :
    firstNonOne (d :: rest) = 0 := by
  simp [firstNonOne, List.findIdx?_cons, h]

theorem findIdxQ_shift (p : ℕ → Bool) (l : List ℕ) (i : ℕ) :
    List.findIdx? p l (i + 1) = (List.findIdx? p l i).map (fun k => k + 1) := by
  induction l generalizing i with
  | nil => rfl
  | cons x rest ih =>
    rw [List.findIdx?_cons, List.findIdx?_cons]
    by_cases hp : p x
    · simp [hp]
    · simp only [hp, Bool.false_eq_true, if_false]
      rw [ih]

theorem findIdxQ_replicate (ℓ : ℕ) (d : ℕ) (rest : List ℕ) (h : d ≠ 1) :
    List.findIdx? (fun x => x ≠ 1) (List.replicate ℓ 1 ++ d :: rest) = some ℓ := by
  induction ℓ with
  | zero =>
    rw [List.replicate_zero, List.nil_append, List.findIdx?_cons]
    simp [h]
  | succ n ih =>
    rw [List.replicate_succ, List.cons_append, List.findIdx?_cons]
    rw [if_neg (by simp)]
    rw [findIdxQ_shift]
    rw [ih]
    rfl

theorem firstNonOne_replicate (ℓ : ℕ) (d : ℕ) (rest : List ℕ) (h : d ≠ 1) :
    firstNonOne (List.replicate ℓ 1 ++ d :: rest) = ℓ := by
  unfold firstNonOne
  rw [findIdxQ_replicate ℓ d rest h]
  rfl

theorem chopOnes_ne_one (d : ℕ) (l : List ℕ) (h : d ≠ 1) :
    chopOnes (d :: l) = d :: l := by
  rcases d with _ | (_ | n)
  · rfl
  · exact absurd rfl h
  · rfl

theorem normDims_all_ge_two (l : List ℕ) (hne : l ≠ []) (h : ∀ d ∈ l, 2 ≤ d) :
    normDims l = l := by
  unfold normDims
  rcases hrev : l.reverse with _ | ⟨x, rest⟩
  · exact absurd (by simpa using congrArg List.reverse hrev) hne
  · have hx : x ∈ l := by
      have : x ∈ l.reverse := by rw [hrev]; simp
      simpa using this
    rw [chopOnes_ne_one x rest (by have := h x hx; omega), ← hrev]
    simp

theorem normDims_two_one (d d' : ℕ) (h : d' ≠ 1) : normDims [d, d', 1] = [d, d'] := by
  unfold normDims
  show (chopOnes [1, d', d]).reverse = [d, d']
  rw [show chopOnes [1, d', d] = chopOnes [d', d] from rfl, chopOnes_ne_one d' [d] h]
  rfl

theorem set_replicate_append (ℓ : ℕ) (d : ℕ) (rest : List ℕ) :
    (List.replicate ℓ 1 ++ d :: rest).set ℓ 1 = List.replicate (ℓ + 1) 1 ++ rest := by
  rw [List.set_append, if_neg (by simp)]
  simp [List.replicate_succ']

theorem nestJ_exists_jarr (cv : Bool) (ds : List ℕ) (data : List RD)
    (h : ds ≠ []) : ∃ l, nestJ cv ds data = .jarr l := by
  rcases ds with _ | ⟨d, rest⟩
  · exact absurd rfl h
  · rcases rest with _ | ⟨d', ds'⟩
    · exact ⟨_, rfl⟩
    · exact ⟨_, rfl⟩

theorem decodeList_map_ok {α : Type} (dec : JVal → Except String OVal)
    (l : List α) (h : α → JVal) (g : α → OVal)
    (hdec : ∀ a ∈ l, dec (h a) = .ok (g a)) :
    decodeList dec (l.map h) = .ok (l.map g) := by
  induction l with
  | nil => rfl
  | cons a rest ih =>
    rw [List.map_cons, decodeList_cons, hdec a (by simp),
      ih (fun x hx => hdec x (by simp [hx]))]
    rfl

/-- Decoding a flat array of faithfully encoded doubles restores the
data as an N×1 column. -/
theorem decode_flat_numeric (fuel : ℕ) (σ : String → String) (cv : Bool)
    (data : List RD) (hne : data ≠ []) (hgood : ∀ x ∈ data, goodRD x) :
    decode (fuel + 1) σ (.jarr (data.map (encNumPure cv)))
      = .ok (.numArr [data.length, 1] data) := by
  show decode_array (decode fuel σ) (data.map (encNumPure cv)) = _
  rw [decode_array_numeric (decode fuel σ) _
    (fun hc => hne (List.map_eq_nil_iff.mp hc))
    (fun e he => by
      rcases List.mem_map.mp he with ⟨x, hx, rfl⟩
      rcases encNumPure_good cv x (hgood x hx) with ⟨jn, hj, _⟩
      right
      rw [hj]
      rfl)]
  unfold decode_numeric_array
  rw [List.length_map, List.map_map]
  have : data.map ((fun e => match e with
      | JVal.null => RD.nan
      | JVal.jnum n => decode_number n
      | _ => RD.nan) ∘ (encNumPure cv)) = data.map id := by
    apply List.map_congr_left
    intro x hx
    rcases encNumPure_good cv x (hgood x hx) with ⟨jn, hj, hd⟩
    simp [Function.comp, hj]
    exact hd
  rw [this, List.map_id]

theorem headD_eq_getD {β : Type} [Inhabited β] (l : List β) :
    l.headD default = l.getD 0 default := by
  cases l <;> rfl

theorem resid_index_lt (d j t q : ℕ) (hj : j < d) (ht : t < q) :
    j + d * t < d * q :=
  calc j + d * t < d + d * t := by omega
  _ = d * (t + 1) := by ring
  _ ≤ d * q := Nat.mul_le_mul_left d ht

theorem resid_mem (d j q : ℕ) (data : List RD) (hj : j < d)
    (hlen : data.length = d * q) :
    ∀ x ∈ resid d j data, x ∈ data := by
  intro x hx
  rcases List.mem_map.mp hx with ⟨t, ht, rfl⟩
  have htq : t < q := by
    have := List.mem_range.mp ht
    rw [hlen, Nat.mul_div_cancel_left q (by omega)] at this
    exact this
  have hidx : j + d * t < data.length := by
    rw [hlen]
    exact resid_index_lt d j t q hj htq
  rw [List.getD_eq_getElem _ _ hidx]
  exact List.getElem_mem hidx

/-- Decoding the normal-form tree restores the array: shape `ds` (as an
N×1 column when `ds` is a single dimension) and the exact column-major
data. -/
theorem decode_nestJ (cv : Bool) (σ : String → String) :
    ∀ (ds : List ℕ) (data : List RD) (fuel : ℕ),
    (∀ d ∈ ds, 2 ≤ d) → ds ≠ [] →
    data.length = ds.prod →
    (∀ x ∈ data, goodRD x) →
    ds.length + 1 ≤ fuel →
    decode fuel σ (nestJ cv ds data)
      = .ok (.numArr (if ds.length = 1 then [ds.headD 0, 1] else ds) data) := by
  intro ds
  induction ds with
  | nil => intro data fuel _ hne; exact absurd rfl hne
  | cons d rest ih =>
    intro data fuel hge _ hlen hgood hfuel
    rcases rest with _ | ⟨d', ds'⟩
    · obtain ⟨f, rfl⟩ : ∃ f, fuel = f + 1 := ⟨fuel - 1, by omega⟩
      have hd : 2 ≤ d := hge d (by simp)
      have hlen' : data.length = d := by simpa using hlen
      have hne2 : data ≠ [] := by
        intro hc
        subst hc
        simp at hlen'
        omega
      rw [show nestJ cv [d] data = .jarr (data.map (encNumPure cv)) from rfl]
      rw [decode_flat_numeric f σ cv data hne2 hgood]
      rw [hlen']
      rfl
    · obtain ⟨f, rfl⟩ : ∃ f, fuel = f + 1 := ⟨fuel - 1, by omega⟩
      have hd : 2 ≤ d := hge d (by simp)
      have hq : data.length = d * (d' :: ds').prod := by
        simpa [List.prod_cons] using hlen
      have hs0 : 0 < (d' :: ds').prod := by
        apply List.prod_pos
        intro x hx
        have := hge x (List.mem_cons_of_mem _ hx)
        omega
      -- decoded shape of the sub-arrays
      set s : List ℕ := if (d' :: ds').length = 1 then [(d' :: ds').headD 0, 1]
        else d' :: ds' with hs_def
      have hsub : ∀ j ∈ List.range d,
          decode f σ (nestJ cv (d' :: ds') (resid d j data))
            = .ok (.numArr s (resid d j data)) := by
        intro j hj
        exact ih (resid d j data) f
          (fun x hx => hge x (List.mem_cons_of_mem _ hx))
          (by simp)
          (by rw [resid_length, hq, Nat.mul_div_cancel_left _ (by omega)])
          (fun x hx => hgood x
            (resid_mem d j _ data (List.mem_range.mp hj) hq x hx))
          (by simp at hfuel ⊢; omega)
      show decode_array (decode f σ) ((List.range d).map
        (fun j => nestJ cv (d' :: ds') (resid d j data))) = _
      have hrne : (List.range d).map
          (fun j => nestJ cv (d' :: ds') (resid d j data)) ≠ [] := by
        simp
        omega
      rw [decode_array_of_jarrs _ _ hrne
        (fun e he => by
          rcases List.mem_map.mp he with ⟨j, _, rfl⟩
          exact nestJ_exists_jarr cv _ _ (by simp))]
      rw [decodeList_map_ok _ (List.range d) _
        (fun j => OVal.numArr s (resid d j data)) hsub]
      show decode_array_of_arrays ((List.range d).map
        (fun j => OVal.numArr s (resid d j data))) = _
      have hcells_len : ((List.range d).map
          (fun j => OVal.numArr s (resid d j data))).length = d := by simp
      have hd'2 : 2 ≤ d' := hge d' (by simp)
      have hsne : s ≠ [0, 0] := by
        rw [hs_def]
        split
        · intro hc
          simp at hc
        · intro hc
          injection hc with h1 h2
          omega
      rw [decode_array_of_arrays_build _ s (fun i => resid d i data)
        (by simp; omega)
        (fun c hc => by rcases List.mem_map.mp hc with ⟨j, _, rfl⟩; rfl)
        (fun c hc => by rcases List.mem_map.mp hc with ⟨j, _, rfl⟩; rfl)
        hsne
        (fun c hc => by
          rcases List.mem_map.mp hc with ⟨j, _, rfl⟩
          rw [headD_eq_getD, getD_map_range d 0 _ _ (by omega)]
          rfl)
        (fun i hi => by
          rw [hcells_len] at hi
          rw [getD_map_range d i _ _ hi]
          rfl)]
      rw [hcells_len]
      -- identify the normalised output shape with the input dims
      have hnorm : normDims (d :: s) = d :: d' :: ds' := by
        rw [hs_def]
        rcases ds' with _ | ⟨x, xs⟩
        · simp only [List.length_cons, List.length_nil, if_pos rfl]
          show normDims [d, d', 1] = [d, d']
          exact normDims_two_one d d' (by omega)
        · have hc : ¬ ((d' :: x :: xs).length = 1) := by
            simp only [List.length_cons]
            omega
          rw [if_neg hc]
          apply normDims_all_ge_two
          · simp
          · intro y hy
            rcases List.mem_cons.mp hy with rfl | hy
            · exact hd
            · exact hge y (List.mem_cons_of_mem _ hy)
      rw [hnorm]
      have htotal : (d :: d' :: ds').prod = data.length := hlen.symm
      rw [htotal]
      have hcount : data.length / d * d = data.length := by
        rw [hq, Nat.mul_div_cancel_left _ (by omega), Nat.mul_comm]
      rw [hcount]
      have hfill : (List.range data.length).map
          (fun p => (resid d (p % d) data).getD (p / d) default) = data := by
        have hcongr : ∀ p ∈ List.range data.length,
            (resid d (p % d) data).getD (p / d) default = data.getD p default := by
          intro p hp
          have hplt : p < data.length := List.mem_range.mp hp
          have hdivlt : p / d < data.length / d := by
            rw [hq, Nat.mul_div_cancel_left _ (by omega)]
            apply Nat.div_lt_of_lt_mul
            rw [← hq]
            exact hplt
          rw [resid_getD d (p % d) (p / d) data hdivlt, Nat.mod_add_div]
        rw [List.map_congr_left hcongr, map_getD_range]
      rw [hfill]
      simp

/-- Unfolding equation of `encode_array` at positive fuel. -/
theorem encode_array_succ (fuel : ℕ) (cv isLog : Bool) (dims : List ℕ)
    (data : List RD) (org : List ℕ) (level : ℕ) :
    encode_array (fuel + 1) cv isLog ⟨dims, data⟩ org level =
    (if data.length == 0 then .ok (.jarr [])
     else if isVec dims then
       (data.mapM (fun x =>
         if isLog then encode_numeric cv (.bool (rdToBool x))
         else encode_numeric cv (.num x))).map .jarr
     else
       if numOnes dims == dims.length - 1 then
         (encode_array fuel cv isLog (asRow ⟨dims, data⟩) org 0).map (fun inner =>
           if level != 0 then nestArrays (dims.length - 1 - level) inner else inner)
       else if org.getD level 1 == 1 then
         (encode_array fuel cv isLog ⟨dims, data⟩ org (level + 1)).map
           (fun j => .jarr [j])
       else
         ((List.range (dims.getD (firstNonOne dims) 1)).mapM (fun j =>
           encode_array fuel cv isLog
             ⟨dims.set (firstNonOne dims) 1,
              num2cellSlice dims (firstNonOne dims) j data⟩
             org (level + 1))).map .jarr) := rfl

/-- The vector branch of `encode_array`: a nonempty numeric vector is
emitted as the flat array of its encoded scalars. -/
theorem encode_array_flat (cv : Bool) (dims org : List ℕ) (data : List RD)
    (fuel level : ℕ) (hne : data ≠ []) (hvec : isVec dims = true) :
    encode_array (fuel + 1) cv false ⟨dims, data⟩ org level =
      .ok (.jarr (data.map (encNumPure cv))) := by
  rw [encode_array_succ]
  rw [if_neg (show ¬((data.length == 0) = true) by
    simp only [beq_iff_eq, List.length_eq_zero]
    exact hne)]
  rw [if_pos hvec]
  rw [mapM_ok_of_forall data _ (encNumPure cv)
    (fun x _ => by
      simp only [Bool.false_eq_true, if_false]
      exact encode_numeric_num_isOk cv x)]
  rfl

/-- `encode_array` on an array whose shape is `ℓ` leading singleton
dimensions followed by dimensions all at least 2, entered at recursion
level `ℓ`, produces exactly the `nestJ` normal form over the trailing
dimensions. -/
theorem encode_array_nestJ (cv : Bool) (org : List ℕ)
    (horg : ∀ i, i < org.length → 2 ≤ org.getD i 1) :
    ∀ (ds : List ℕ) (ℓ : ℕ) (data : List RD) (fuel : ℕ),
    (∀ d ∈ ds, 2 ≤ d) → ds ≠ [] →
    data.length = ds.prod →
    ℓ + ds.length = org.length →
    ds.length + 2 ≤ fuel →
    encode_array fuel cv false ⟨List.replicate ℓ 1 ++ ds, data⟩ org ℓ =
      .ok (nestJ cv ds data) := by
  intro ds
  induction ds with
  | nil => intro ℓ data fuel _ hne; exact absurd rfl hne
  | cons d rest ih =>
    intro ℓ data fuel hge hne hlen horglen hfuel
    obtain ⟨f, rfl⟩ : ∃ f, fuel = f + 1 := ⟨fuel - 1, by omega⟩
    have hd : 2 ≤ d := hge d (by simp)
    rcases rest with _ | ⟨d', rest'⟩
    · -- single trailing dimension
      have hlen' : data.length = d := by simpa using hlen
      have hne' : data ≠ [] := by
        intro hc
        rw [hc] at hlen'
        simp at hlen'
        omega
      rcases ℓ with _ | (_ | k)
      · -- level 0: one dimension in total; numOnes = ndims - 1 branch
        rw [show (List.replicate 0 1 ++ [d] : List ℕ) = [d] from rfl]
        rw [encode_array_succ]
        rw [if_neg (show ¬((data.length == 0) = true) by
          simp only [beq_iff_eq, List.length_eq_zero]
          exact hne')]
        rw [if_neg (show ¬(isVec [d] = true) by
          simp [isVec])]
        rw [if_pos (show (numOnes [d] == [d].length - 1) = true by
          rw [numOnes_of_ge_two [d] (by intro x hx; simp at hx; omega)]
          rfl)]
        obtain ⟨f', rfl⟩ : ∃ f', f = f' + 1 := ⟨f - 1, by omega⟩
        have hrow : asRow (⟨[d], data⟩ : NDA) = ⟨[1, data.length], data⟩ := rfl
        rw [hrow, encode_array_flat cv [1, data.length] org data f' 0 hne' rfl]
        rfl
      · -- level 1: shape [1, d] is a vector
        rw [show (List.replicate 1 1 ++ [d] : List ℕ) = [1, d] from rfl]
        rw [encode_array_flat cv [1, d] org data f 1 hne' rfl]
        rfl
      · -- level k+2: all but one dimension singleton; asRow branch, zero brackets
        rw [encode_array_succ]
        rw [if_neg (show ¬((data.length == 0) = true) by
          simp only [beq_iff_eq, List.length_eq_zero]
          exact hne')]
        rw [if_neg (show ¬(isVec (List.replicate (k + 1 + 1) 1 ++ [d]) = true) by
          simp [isVec])]
        have hno : (numOnes (List.replicate (k + 1 + 1) 1 ++ [d]) ==
            (List.replicate (k + 1 + 1) 1 ++ [d]).length - 1) = true := by
          rw [numOnes_append, numOnes_replicate_one,
            numOnes_of_ge_two [d] (by intro x hx; simp at hx; omega)]
          simp
        rw [hno, if_pos rfl]
        obtain ⟨f', rfl⟩ : ∃ f', f = f' + 1 := ⟨f - 1, by omega⟩
        have hrow : asRow (⟨List.replicate (k + 1 + 1) 1 ++ [d], data⟩ : NDA) =
            ⟨[1, data.length], data⟩ := rfl
        rw [hrow, encode_array_flat cv [1, data.length] org data f' 0 hne' rfl]
        have hz : (List.replicate (k + 1 + 1) 1 ++ [d]).length - 1 - (k + 1 + 1) = 0 := by
          simp
        rw [hz]
        have htk : ((k + 1 + 1 : ℕ) != 0) = true := rfl
        rw [htk]
        rfl
    · -- at least two trailing dimensions: split along dimension ℓ
      have hd' : 2 ≤ d' := hge d' (by simp)
      have hprodpos : 0 < (d' :: rest').prod := by
        apply List.prod_pos
        intro x hx
        have := hge x (List.mem_cons_of_mem _ hx)
        omega
      have hlen' : data.length = d * (d' :: rest').prod := by simpa using hlen
      have hne' : data ≠ [] := by
        intro hc
        rw [hc] at hlen'
        simp only [List.length_nil] at hlen'
        have hpos : 0 < d * (d' :: rest').prod := Nat.mul_pos (by omega) hprodpos
        omega
      rw [encode_array_succ]
      rw [if_neg (show ¬((data.length == 0) = true) by
        simp only [beq_iff_eq, List.length_eq_zero]
        exact hne')]
      rw [if_neg (show ¬(isVec (List.replicate ℓ 1 ++ d :: d' :: rest') = true) by
        rcases ℓ with _ | k
        · show ¬(isVec (d :: d' :: rest') = true)
          simp only [isVec, Bool.and_eq_true, Bool.or_eq_true, beq_iff_eq]
          rintro ⟨-, h | h⟩
          · simp at h
            omega
          · simp at h
            omega
        · simp only [isVec, Bool.and_eq_true, beq_iff_eq]
          rintro ⟨h, -⟩
          simp at h
          omega)]
      have hno : (numOnes (List.replicate ℓ 1 ++ d :: d' :: rest') ==
          (List.replicate ℓ 1 ++ d :: d' :: rest').length - 1) = false := by
        rw [numOnes_append, numOnes_replicate_one,
          numOnes_of_ge_two (d :: d' :: rest') (by
            intro x hx
            exact hge x hx)]
        simp only [beq_eq_false_iff_ne, ne_eq, List.length_append,
          List.length_replicate, List.length_cons]
        omega
      rw [hno, if_neg Bool.false_ne_true]
      rw [if_neg (show ¬((org.getD ℓ 1 == 1) = true) by
        have hlt : ℓ < org.length := by
          simp only [List.length_cons] at horglen
          omega
        have := horg ℓ hlt
        simp only [beq_iff_eq]
        omega)]
      have hidx : firstNonOne (List.replicate ℓ 1 ++ d :: d' :: rest') = ℓ :=
        firstNonOne_replicate ℓ d (d' :: rest') (by omega)
      have hgetD : (List.replicate ℓ 1 ++ d :: d' :: rest').getD ℓ 1 = d := by
        rw [List.getD_append_right _ _ _ _ (by simp)]
        simp
      rw [hidx, hgetD, set_replicate_append]
      have hP : ((List.replicate ℓ 1 ++ d :: d' :: rest').take ℓ).prod = 1 := by
        rw [List.take_append_of_le_length (by simp)]
        simp
      have hreslen : ∀ j : ℕ, (resid d j data).length = (d' :: rest').prod := by
        intro j
        rw [resid_length, hlen', Nat.mul_div_cancel_left _ (by omega)]
      rw [mapM_ok_of_forall (List.range d) _
        (fun j => nestJ cv (d' :: rest') (resid d j data))
        (fun j _ => by
          rw [num2cellSlice_one _ _ _ _ hP, hgetD]
          exact ih (ℓ + 1) (resid d j data) f
            (fun x hx => hge x (List.mem_cons_of_mem _ hx))
            (by simp)
            (hreslen j)
            (by simp only [List.length_cons] at horglen ⊢; omega)
            (by simp only [List.length_cons] at hfuel ⊢; omega))]
      rfl

/-- `jsonencode` on a numeric array dispatches to `encode_array` with the
array's own dims as `org_dims` and ample stack. -/
theorem jsonencode_numArr (cv : Bool) (d : List ℕ) (data : List RD) (s : Bool) :
    jsonencode cv (.numArr d data) s =
      (encode_array (2 * d.length + 4) cv false ⟨d, data⟩ d 0, s) := by
  rw [jsonencode_eq, osize_numArr]
  rfl

theorem jsize_pos (j : JVal) : 1 ≤ jsize j := by
  cases j with
  | null => rw [jsize_null]
  | jbool b => rw [jsize_jbool]
  | jnum n => rw [jsize_jnum]
  | jstr s => rw [jsize_jstr]
  | jarr es => rw [jsize_jarr]; omega
  | jobj ms => rw [jsize_jobj]; omega

theorem jsizeL_pos (l : List JVal) : 1 ≤ jsizeL l := by
  cases l with
  | nil => rw [jsizeL_nil]
  | cons e rest =>
    rw [jsizeL_cons]
    have := jsize_pos e
    omega

theorem jsizeL_ge_of_mem {e : JVal} {l : List JVal} (h : e ∈ l) :
    jsize e ≤ jsizeL l := by
  induction l with
  | nil => exact absurd h (List.not_mem_nil e)
  | cons a rest ih =>
    rw [jsizeL_cons]
    rcases List.mem_cons.mp h with rfl | hm
    · omega
    · have := ih hm
      omega

/-- The decoder's fuel (the size of the node tree) always suffices for
`decode_nestJ` on a `nestJ` normal form. -/
theorem jsize_nestJ_ge (cv : Bool) :
    ∀ (ds : List ℕ) (data : List RD), (∀ d ∈ ds, 2 ≤ d) → ds ≠ [] →
    ds.length + 1 ≤ jsize (nestJ cv ds data) := by
  intro ds
  induction ds with
  | nil => intro data _ hne; exact absurd rfl hne
  | cons d rest ih =>
    intro data hge hne
    rcases rest with _ | ⟨d', rest'⟩
    · show 1 + 1 ≤ jsize (.jarr (data.map (encNumPure cv)))
      rw [jsize_jarr]
      have := jsizeL_pos (data.map (encNumPure cv))
      omega
    · show (d' :: rest').length + 1 + 1 ≤
        jsize (.jarr ((List.range d).map
          (fun j => nestJ cv (d' :: rest') (resid d j data))))
      have hd : 2 ≤ d := hge d (by simp)
      have hmem : nestJ cv (d' :: rest') (resid d 0 data) ∈
          (List.range d).map (fun j => nestJ cv (d' :: rest') (resid d j data)) :=
        List.mem_map.mpr ⟨0, List.mem_range.mpr (by omega), rfl⟩
      have h1 := ih (resid d 0 data)
        (fun x hx => hge x (List.mem_cons_of_mem _ hx)) (by simp)
      have h3 := jsizeL_ge_of_mem hmem
      rw [jsize_jarr]
      simp only [List.length_cons] at h1 ⊢
      omega

/-- C1: the round-trip claim fails for shapes with singleton dimensions: a
1×2 row vector of finite doubles encodes to a flat JSON array whose
decoding is the 2×1 column, so `decode(encode(A))` differs from `A` in
shape. -/
theorem C1_counterexample :
    ∃ j, jsonencode true (.numArr [1, 2] [.fin 1, .fin 2]) false = (.ok j, false) ∧
      jsondecode id j = .ok (.numArr [2, 1] [.fin 1, .fin 2]) ∧
      OVal.numArr [2, 1] [.fin 1, .fin 2] ≠ .numArr [1, 2] [.fin 1, .fin 2] := by
  refine ⟨.jarr ([RD.fin 1, RD.fin 2].map (encNumPure true)), ?_, ?_, ?_⟩
  · rw [jsonencode_numArr]
    rw [show 2 * ([1, 2] : List ℕ).length + 4 = 7 + 1 from rfl]
    rw [encode_array_flat true [1, 2] [1, 2] [.fin 1, .fin 2] 7 0 (by simp) rfl]
  · obtain ⟨f, hf⟩ : ∃ f,
        jsize (.jarr ([RD.fin 1, RD.fin 2].map (encNumPure true))) = f + 1 := by
      refine ⟨jsize (.jarr ([RD.fin 1, RD.fin 2].map (encNumPure true))) - 1, ?_⟩
      have := jsize_pos (.jarr ([RD.fin 1, RD.fin 2].map (encNumPure true)))
      omega
    rw [jsondecode_eq, hf, decode_flat_numeric f id true [.fin 1, .fin 2]
      (by simp)
      (by
        intro x hx
        simp at hx
        rcases hx with rfl | rfl
        · exact ⟨1, rfl, fun _ => by norm_num⟩
        · exact ⟨2, rfl, fun _ => by norm_num⟩)]
    rfl
  · intro h
    injection h with h1 h2
    simp at h1

/-- C1 (amended): the round-trip `decode(encode(A)) = A` does hold, in
shape and values, for numeric arrays of finite doubles provided both
(a) the shape is an N×1 column vector or has every dimension at least 2
(no singleton dimensions — a row vector comes back as a column, see the
counterexample), and (b) no entry is a non-integer within 2^-52 of its
floor while inside [-999999, 999999] (`goodRD`): such an entry trips the
epsilon-tolerant integer-emission test of `encode_numeric` and is
rewritten to an integer literal (e.g. 2^-60 encodes to `0`), so it
cannot round-trip. -/
theorem C1_amended (cv st : Bool) (σ : String → String)
    (dims : List ℕ) (data : List RD)
    (hlen : data.length = dims.prod)
    (hgood : ∀ x ∈ data, goodRD x)
    (hshape : (∃ n, 1 ≤ n ∧ dims = [n, 1]) ∨
      (2 ≤ dims.length ∧ ∀ d ∈ dims, 2 ≤ d)) :
    ∃ j, jsonencode cv (.numArr dims data) st = (.ok j, st) ∧
      jsondecode σ j = .ok (.numArr dims data) := by
  rcases hshape with ⟨n, hn, rfl⟩ | ⟨hlen2, hge⟩
  · have hlen' : data.length = n := by simpa using hlen
    have hne : data ≠ [] := by
      intro hc
      rw [hc] at hlen'
      simp at hlen'
      omega
    refine ⟨.jarr (data.map (encNumPure cv)), ?_, ?_⟩
    · rw [jsonencode_numArr]
      rw [show 2 * ([n, 1] : List ℕ).length + 4 = 7 + 1 from rfl]
      rw [encode_array_flat cv [n, 1] [n, 1] data 7 0 hne (by simp [isVec])]
    · obtain ⟨f, hf⟩ : ∃ f, jsize (.jarr (data.map (encNumPure cv))) = f + 1 := by
        refine ⟨jsize (.jarr (data.map (encNumPure cv))) - 1, ?_⟩
        have := jsize_pos (.jarr (data.map (encNumPure cv)))
        omega
      rw [jsondecode_eq, hf, decode_flat_numeric f σ cv data hne hgood, hlen']
  · have hdne : dims ≠ [] := by
      intro hc
      rw [hc] at hlen2
      simp at hlen2
    have horg : ∀ i, i < dims.length → 2 ≤ dims.getD i 1 := by
      intro i hi
      rw [List.getD_eq_getElem dims 1 hi]
      exact hge _ (List.getElem_mem hi)
    refine ⟨nestJ cv dims data, ?_, ?_⟩
    · rw [jsonencode_numArr]
      have henc := encode_array_nestJ cv dims horg dims 0 data
        (2 * dims.length + 4) hge hdne hlen (by omega) (by omega)
      simp only [List.replicate_zero, List.nil_append] at henc
      rw [henc]
    · rw [jsondecode_eq]
      rw [decode_nestJ cv σ dims data (jsize (nestJ cv dims data)) hge hdne hlen
        hgood (jsize_nestJ_ge cv dims data hge hdne)]
      rw [if_neg (by omega)]

/-- Witness for C1 (amended) at the 2×2 array [1 3; 2 4]. -/
theorem C1_amended_witness :
    ∃ j, jsonencode true (.numArr [2, 2] [.fin 1, .fin 2, .fin 3, .fin 4]) false
        = (.ok j, false) ∧
      jsondecode id j = .ok (.numArr [2, 2] [.fin 1, .fin 2, .fin 3, .fin 4]) :=
  C1_amended true false id [2, 2] [.fin 1, .fin 2, .fin 3, .fin 4]
    (by norm_num)
    (by
      intro x hx
      simp at hx
      rcases hx with rfl | rfl | rfl | rfl
      · exact ⟨1, rfl, fun _ => by norm_num⟩
      · exact ⟨2, rfl, fun _ => by norm_num⟩
      · exact ⟨3, rfl, fun _ => by norm_num⟩
      · exact ⟨4, rfl, fun _ => by norm_num⟩)
    (Or.inr ⟨by norm_num, by
      intro d hd
      simp at hd
      omega⟩)
